import Mathlib

/-!
# Verification of the factoreally hint-chain generator against its specification

This file gives a shallow embedding of the parts of the `factoreally`
code base that the checked properties speak about:

* the hint chain interpreter (`factoreally/hints/*.py`,
  `generate_value_from_hints`),
* the spec-tree builder functions (`factoreally/factory_spec.py`),
* the presence analyzer (`factoreally/analyzers/presence_analyzer.py`),
* the string pattern recognizer
  (`factoreally/analyzers/string_pattern_analyzer.py`) together with the
  alphanumeric analyzer and the analysis cascade in `create_spec.py`,
* override application and slice indexing (`factoreally/factory.py`).

Python `int`/`float` values are modelled by `PyNum` over `ℤ`/`ℚ`
(`float` as exact rationals), Python's `round` by round-half-to-even on
`ℚ`, and the ambient pseudo-random source by an explicit stream of
rational draws: each call of a `random` primitive consumes the next
element of the stream.  `random.normalvariate(mu, sigma)` is modelled in
reparametrized form `mu + sigma * z` where `z` is the drawn standard
normal deviate; the other variate primitives return the drawn value
directly (shifted/scaled exactly as the source code does with their
results).
-/

/-- Python `int` or `float`.  `float` is modelled as an exact rational. -/
inductive PyNum where
  | i (n : ℤ)
  | f (q : ℚ)
deriving DecidableEq, Repr

/-- Numeric value of a `PyNum`. -/
def PyNum.toRat : PyNum → ℚ
  | .i n => (n : ℚ)
  | .f q => q

/-- Python `max(a, b)`: returns `b` only when it is strictly greater
(the builtin keeps the first maximal argument). -/
def pyMaxN (a b : PyNum) : PyNum :=
  if a.toRat < b.toRat then b else a

/-- Python `min(a, b)`: returns `b` only when it is strictly smaller. -/
def pyMinN (a b : PyNum) : PyNum :=
  if b.toRat < a.toRat then b else a

/-- Round-half-to-even to an integer: the behaviour of Python's
builtin `round(x)` (and of `round(x, None)`). -/
def pyRoundInt (q : ℚ) : ℤ :=
  if q - (⌊q⌋ : ℚ) < 1 / 2 then ⌊q⌋
  else if 1 / 2 < q - (⌊q⌋ : ℚ) then ⌊q⌋ + 1
  else if Even ⌊q⌋ then ⌊q⌋ else ⌊q⌋ + 1

/-- Round-half-to-even keeping `n` decimal places: Python `round(x, n)`
for a float `x`. -/
def pyRoundTo (n : ℕ) (q : ℚ) : ℚ :=
  (pyRoundInt (q * 10 ^ n) : ℚ) / 10 ^ n

/-- Python `round(value, prec)` on a `PyNum`: with `prec = None` the
result is an `int`; with an explicit precision an `int` input is
returned unchanged and a `float` input is rounded to `prec` decimals. -/
def pyRoundN (prec : Option ℕ) (v : PyNum) : PyNum :=
  match prec with
  | none => .i (pyRoundInt v.toRat)
  | some n =>
    match v with
    | .i k => .i k
    | .f q => .f (pyRoundTo n q)

/-- Numeric value of `pyRoundN` as a function on `ℚ`. -/
def ratRound (prec : Option ℕ) (q : ℚ) : ℚ :=
  match prec with
  | none => (pyRoundInt q : ℚ)
  | some n => pyRoundTo n q


/-! ## The value universe

JSON-like trees plus the two chain sentinels of `factoreally/hints/base.py`:
`NULL = Sentinel("NullValueMarker")` and `MISSING = Sentinel("MissingFieldMarker")`.
`Value.pynull` is Python's `None`, which doubles as the null-seed of a
hint chain. -/

inductive Value where
  | pynull
  | b (x : Bool)
  | num (n : PyNum)
  | s (t : String)
  | arr (xs : List Value)
  | obj (kvs : List (String × Value))
  | nullMark
  | missingMark
deriving Repr

mutual

/-- Structural size of a value (executable, used to budget the fuel of
the nested-override walk). -/
def Value.vsize : Value → ℕ
  | .arr xs => 1 + listVsize xs
  | .obj kvs => 1 + objVsize kvs
  | _ => 1

def listVsize : List Value → ℕ
  | [] => 0
  | v :: t => v.vsize + listVsize t

def objVsize : List (String × Value) → ℕ
  | [] => 0
  | (_, v) :: t => v.vsize + objVsize t

end

mutual

/-- `true` iff the `MISSING` sentinel occurs anywhere inside the value. -/
def Value.containsMissing : Value → Bool
  | .missingMark => true
  | .arr xs => listContainsMissing xs
  | .obj kvs => objContainsMissing kvs
  | _ => false

def listContainsMissing : List Value → Bool
  | [] => false
  | v :: t => v.containsMissing || listContainsMissing t

def objContainsMissing : List (String × Value) → Bool
  | [] => false
  | (_, v) :: t => v.containsMissing || objContainsMissing t

end

/-! ## The hint catalog and the chain interpreter

From `factoreally/hints/*.py`.  Each hint processes a seed value with a
continuation (`process_value(self, value, call_next)`); the chain of a
field composes them left to right and is applied to the null-seed
(`generate_value_from_hints` in `factoreally/hints/__init__.py`).
Randomness is an explicit stream of rational draws. -/

/-- `NumberHint` (from `factoreally/hints/number_hint.py`): `min`, `max`,
optional decimal precision and at most one distribution parameter block.
The six optional blocks mirror the six dataclass fields `norm`, `gamma`,
`beta`, `lognorm`, `expon`, `weibull`. -/
structure NumberHintE where
  min : PyNum
  max : PyNum
  prec : Option ℕ := none
  norm : Option (ℚ × ℚ) := none
  gammaP : Option (ℚ × ℚ × ℚ) := none
  betaP : Option (ℚ × ℚ × ℚ × ℚ) := none
  lognormP : Option (ℚ × ℚ × ℚ) := none
  exponP : Option (ℚ × ℚ) := none
  weibullP : Option (ℚ × ℚ × ℚ) := none
deriving Repr

/-- The raw (pre-clamp) sample drawn by `NumberHint.process_value` when
the seed is the null-seed and `min ≠ max`: the branch order is exactly
that of the source (`norm`, `gamma`, `beta`, `lognorm`, `expon`,
`weibull`, then `randint` for two `int` bounds, else `uniform`).
`d` is the value delivered by the consulted random primitive;
`normalvariate(mean, std)` is modelled as `mean + std * d`,
`randint(a, b)` as `a + d.floor % (b - a + 1)`, and
`uniform(a, b)` as `a + d * (b - a)` for a unit draw `d`; the remaining
variate primitives return the draw itself, shifted and scaled exactly as
in the source. -/
def numberSample (h : NumberHintE) (d : ℚ) : PyNum :=
  if let some p := h.norm then .f (p.1 + p.2 * d)
  else if let some p := h.gammaP then .f (d + p.2.2)
  else if let some p := h.betaP then .f (p.2.2.1 + p.2.2.2 * d)
  else if let some p := h.lognormP then .f (d + p.2.1)
  else if let some p := h.exponP then .f (d + p.1)
  else if let some p := h.weibullP then .f (d + p.2.1)
  else
    match h.min, h.max with
    | .i a, .i b => .i (a + Int.emod ⌊d⌋ (b - a + 1))
    | _, _ => .f (h.min.toRat + d * (h.max.toRat - h.min.toRat))

/-- The value generated by `NumberHint.process_value` for a null seed and
`min ≠ max`: the raw sample clamped to `[min, max]` by
`max(self.min, min(self.max, value))` and then rounded by
`round(value, self.prec)`. -/
def numberGen (h : NumberHintE) (d : ℚ) : PyNum :=
  pyRoundN h.prec (pyMaxN h.min (pyMinN h.max (numberSample h d)))

/-- Zero-pad a (nonnegative) integer to two digits, like Python's
`f"{n:02d}"` (negative numbers keep their sign, as in Python). -/
def pad2 (n : ℤ) : String :=
  if 0 ≤ n ∧ n < 10 then "0" ++ toString n else toString n

/-- Python float modulo (`x % m` for `m > 0`): result in `[0, m)`. -/
def pyFMod (x m : ℚ) : ℚ := x - m * ⌊x / m⌋

/-- `DurationRangeHint.process_value` rendering for `fmt == "HMS"`. -/
def fmtHMS (sec : ℚ) : String :=
  pad2 ⌊sec / 3600⌋ ++ ":" ++ pad2 ⌊pyFMod sec 3600 / 60⌋ ++ ":" ++ pad2 ⌊pyFMod sec 60⌋

/-- Left-pad a natural number with zeros to 7 digits. -/
def pad7 (n : ℕ) : String :=
  let t := toString n
  String.mk (List.replicate (7 - t.length) '0') ++ t

/-- The fractional-seconds digits of the `D.HMS.F` rendering:
`f"{frac:.7f}"[2:]` with trailing zeros stripped, `"0"` when empty. -/
def fracDigits7 (frac : ℚ) : String :=
  let k := pyRoundInt (frac * 10 ^ 7)
  let digs := if k ≥ 10 ^ 7 then "0000000" else pad7 k.toNat
  let stripped := String.mk (digs.data.reverse.dropWhile (· = '0')).reverse
  if stripped = "" then "0" else stripped

/-- `DurationRangeHint.process_value` rendering for `fmt == "D.HMS.F"`. -/
def fmtDHMSF (sec : ℚ) : String :=
  let days := ⌊sec / (24 * 3600)⌋
  let hours := ⌊pyFMod sec (24 * 3600) / 3600⌋
  let minutes := ⌊pyFMod sec 3600 / 60⌋
  let rem := pyFMod sec 60
  let intSec := ⌊rem⌋
  toString days ++ "." ++ pad2 hours ++ ":" ++ pad2 minutes ++ ":" ++ pad2 intSec
    ++ "." ++ fracDigits7 (rem - (intSec : ℚ))

/-- `DurationRangeHint.process_value` rendering for `fmt == "D.HMS"`. -/
def fmtDHMS (sec : ℚ) : String :=
  toString ⌊sec / (24 * 3600)⌋ ++ "." ++ pad2 ⌊pyFMod sec (24 * 3600) / 3600⌋
    ++ ":" ++ pad2 ⌊pyFMod sec 3600 / 60⌋ ++ ":" ++ pad2 ⌊pyFMod sec 60⌋

/-- The clamped seconds sampled by `DurationRangeHint.process_value`:
`random.normalvariate(self.avg, (max - min) / 6)` clamped to
`[min, max]`.  `z` is the drawn standard normal deviate. -/
def durationSeconds (mn mx avg z : ℚ) : ℚ :=
  max mn (min mx (avg + (mx - mn) / 6 * z))

/-- The value produced by `DurationRangeHint.process_value` for a null
seed (from `factoreally/hints/duration_range_hint.py`, lines 168-218):
only the formats `"HMS"`, `"D.HMS.F"` and `"D.HMS"` are rendered as
strings; every other `fmt` falls into the trailing `else` branch and
yields the raw clamped seconds. -/
def durationGen (fmt : String) (mn mx avg z : ℚ) : Value :=
  let sec := durationSeconds mn mx avg z
  if fmt = "HMS" then .s (fmtHMS sec)
  else if fmt = "D.HMS.F" then .s (fmtDHMSF sec)
  else if fmt = "D.HMS" then .s (fmtDHMS sec)
  else .num (.f sec)

/-- The closed set of hint variants appearing in the claims, tagged as
in `HINT_TYPE_MAP` (`factoreally/hints/__init__.py`). -/
inductive HintE where
  | missing (pct : ℚ)
  | nullh (pct : ℚ)
  | number (h : NumberHintE)
  | duration (fmt : String) (mn mx avg : ℚ)
  | constV (val : Value)
  | arrayMark
  | objectMark
deriving Repr

/-- Pop the next draw from the random stream (`0` on exhaustion; all
theorems below supply sufficiently long streams or quantify over them). -/
def popDraw : List ℚ → ℚ × List ℚ
  | [] => (0, [])
  | q :: t => (q, t)

/-- Run a hint chain on a seed: the continuation-passing composition of
`_create_hint_chain` in `factoreally/hints/__init__.py` evaluated
directly.  Per-hint behaviour:

* `MissingHint.process_value`: `if random.random() * 100 > self.pct:
  return MISSING` else continue with the seed (`missing_hint.py`);
* `NullHint.process_value`: `if random.random() * 100 <= self.pct:
  return NULL` else continue (`null_hint.py`);
* `NumberHint.process_value`: on a null seed, `if self.min == self.max:
  return self.min` (without calling the continuation!), otherwise
  sample, clamp, round and continue; on a non-null seed pass it on
  (`number_hint.py`);
* `DurationRangeHint.process_value`: on a null seed generate and
  continue, else pass through (`duration_range_hint.py`);
* `ConstantValueHint.process_value`: substitute `val` for a null seed
  and continue (`constant_value_hint.py`);
* `ArrayHint` / `ObjectHint` have no `process_value` and inherit the
  passthrough of `AnalysisHint` (`base.py`). -/
def runChain : List HintE → Value → List ℚ → Value × List ℚ
  | [], v, rng => (v, rng)
  | hint :: rest, v, rng =>
    match hint with
    | .missing pct =>
      let (u, rng1) := popDraw rng
      if u * 100 > pct then (.missingMark, rng1) else runChain rest v rng1
    | .nullh pct =>
      let (u, rng1) := popDraw rng
      if u * 100 ≤ pct then (.nullMark, rng1) else runChain rest v rng1
    | .number h =>
      match v with
      | .pynull =>
        if h.min.toRat = h.max.toRat then (.num h.min, rng)
        else
          let (d, rng1) := popDraw rng
          runChain rest (.num (numberGen h d)) rng1
      | _ => runChain rest v rng
    | .duration fmt mn mx avg =>
      match v with
      | .pynull =>
        let (z, rng1) := popDraw rng
        runChain rest (durationGen fmt mn mx avg z) rng1
      | _ => runChain rest v rng
    | .constV val =>
      match v with
      | .pynull => runChain rest val rng
      | _ => runChain rest v rng
    | .arrayMark => runChain rest v rng
    | .objectMark => runChain rest v rng

/-- `generate_value_from_hints`: run the chain on the null-seed. -/
def generateValueFromHints (hints : List HintE) (rng : List ℚ) : Value × List ℚ :=
  runChain hints .pynull rng

/-! ## Spec-tree builder functions

From `factoreally/factory_spec.py`.  A prepared node builds a value by
dispatching on its hints: `_build_array` for an `ARRAY` marker,
`_build_object` for a static object with children, `_build_leaf`
otherwise (`FactorySpec.build`).  Child/element factories are modelled
as builder functions (the result of `_prepare_*`); Python exceptions are
modelled with `Except`. -/

/-- The exception kinds raised by the builder functions. -/
inductive BuildErr where
  | typeErr (msg : String)
  | runtimeErr (msg : String)
  | notImplemented
deriving DecidableEq, Repr

/-- A prepared sub-factory: consumes the random stream, yields a value
(or raises). -/
def Builder : Type := List ℚ → Except BuildErr (Value × List ℚ)

/-- Build `n` elements with the element sub-factory, threading the
random stream (the list comprehension in `_build_array`). -/
def buildN (eb : Builder) : ℕ → List ℚ → Except BuildErr (List Value × List ℚ)
  | 0, rng => .ok ([], rng)
  | n + 1, rng => do
    let (v, rng1) ← eb rng
    let (vs, rng2) ← buildN eb n rng1
    .ok (v :: vs, rng2)

/-- `FactorySpec._build_array` (lines 82-101): run the full hint chain on
a null-seed; `NULL` yields Python `None`; a non-`int` result (including
the `MISSING` sentinel) raises
`TypeError("unexpected generated value for array size: ...")`; size `0`
yields `[]`; otherwise the prepared element factory builds each element
(`RuntimeError` if preparation left no element factory). -/
def buildArray (hints : List HintE) (elemFactory : Option Builder) (rng : List ℚ) :
    Except BuildErr (Value × List ℚ) :=
  let (sz, rng1) := generateValueFromHints hints rng
  match sz with
  | .nullMark => .ok (.pynull, rng1)
  | .num (.i n) =>
    if n = 0 then .ok (.arr [], rng1)
    else
      match elemFactory with
      | none => .error (.runtimeErr "prepare_array did not set array_element_factory")
      | some eb => do
        let (vs, rng2) ← buildN eb n.toNat rng1
        .ok (.arr vs, rng2)
  | _ => .error (.typeErr "unexpected generated value for array size")

/-- The child-building loop of `FactorySpec._build_object` (lines
188-195): build every child factory in order, omit children whose value
is the `MISSING` sentinel, raise `NotImplementedError` for a child that
returns the `NULL` sentinel, and bind the rest. -/
def buildChildren : List (String × Builder) → List ℚ →
    Except BuildErr (List (String × Value) × List ℚ)
  | [], rng => .ok ([], rng)
  | (key, f) :: rest, rng => do
    let (v, rng1) ← f rng
    match v with
    | .missingMark => buildChildren rest rng1
    | .nullMark => .error .notImplemented
    | _ => do
      let (kvs, rng2) ← buildChildren rest rng1
      .ok ((key, v) :: kvs, rng2)

/-- `FactorySpec._build_object` (lines 177-195): if the node carries its
own hints, run them first and short-circuit to Python `None` on the
`NULL` sentinel (any other chain result, the `MISSING` sentinel
included, is discarded); then build the children. -/
def buildObject (selfHints : List HintE) (children : List (String × Builder))
    (rng : List ℚ) : Except BuildErr (Value × List ℚ) :=
  if selfHints.isEmpty then do
    let (kvs, rng1) ← buildChildren children rng
    .ok (.obj kvs, rng1)
  else
    let (selfV, rng1) := generateValueFromHints selfHints rng
    match selfV with
    | .nullMark => .ok (.pynull, rng1)
    | _ => do
      let (kvs, rng2) ← buildChildren children rng1
      .ok (.obj kvs, rng2)

/-- `FactorySpec._build_leaf` (lines 197-202): run the chain on the
null-seed, map the `NULL` sentinel to Python `None`, return anything
else unchanged — the `MISSING` sentinel included. -/
def buildLeaf (hints : List HintE) (rng : List ℚ) : Except BuildErr (Value × List ℚ) :=
  let (v, rng1) := generateValueFromHints hints rng
  match v with
  | .nullMark => .ok (.pynull, rng1)
  | _ => .ok (v, rng1)

/-! ## The presence analyzer

From `factoreally/analyzers/presence_analyzer.py`. -/

/-- Modelled from the spec: `factoreally/constants.py` is not under
`src/`; the spec fixes the rounding of hint percentages at three decimal
places (`MISSING{pct = round((1 - presence/parent) · 100, 3)}`), so
`MAX_PRECISION = 3`. -/
def MAX_PRECISION : ℕ := 3

/-- A `MissingHint` as produced by the analyzer: the payload `pct`. -/
structure MissingHintE where
  pct : ℚ
deriving DecidableEq, Repr

/-- `PresenceAnalyzer._get_parent_path`: everything before the last dot,
or `None` for a top-level path. -/
def getParentPath (fieldPath : String) : Option String :=
  if fieldPath.data.contains '.' then
    some (String.mk ((fieldPath.data.reverse.dropWhile (fun c => c ≠ '.')).tail).reverse)
  else none

/-- The state of a `PresenceAnalyzer` after `calculate`. -/
structure PresenceState where
  fieldCounts : List (String × ℕ)
  totalRecords : ℕ
  parentPresence : List (String × ℕ)

/-- Assoc-list lookup (Python `dict.get`). -/
def alistGet {α : Type} (kvs : List (String × α)) (k : String) : Option α :=
  (kvs.find? (fun kv => kv.1 = k)).map Prod.snd

/-- Python `str.endswith` for a fixed short suffix, on the character
list. -/
def endsWithChars (s : String) (suf : List Char) : Bool :=
  decide (s.data.drop (s.data.length - suf.length) = suf)

/-- `PresenceAnalyzer.get_hint` (lines 51-80): no hint for paths ending
in `[]` or `{}`; otherwise the denominator is the parent's
present-non-null count when the path is nested and the parent is
tracked, else the total record count; no hint when the presence
percentage is exactly 100, else a `MissingHint` with
`pct = round(100 - percentage, MAX_PRECISION)`. -/
def presenceGetHint (st : PresenceState) (fieldPath : String) : Option MissingHintE :=
  if endsWithChars fieldPath ['[', ']'] then none
  else if endsWithChars fieldPath ['\x7b', '\x7d'] then none
  else
    let denom : ℕ :=
      match getParentPath fieldPath with
      | some parent =>
        match alistGet st.parentPresence parent with
        | some cnt => cnt
        | none => st.totalRecords
      | none => st.totalRecords
    let fieldCount : ℕ := (alistGet st.fieldCounts fieldPath).getD 0
    let percentage : ℚ := ((fieldCount : ℚ) / (denom : ℚ)) * 100
    if percentage = 100 then none
    else some ⟨pyRoundTo MAX_PRECISION (100 - percentage)⟩

/-! ## Slice indexing

`Factory.__getitem__` from `factoreally/factory.py` (lines 455-466). -/

/-- A Python subscript key: a slice (with optional start/stop/step) or
anything else. -/
inductive PyKey where
  | slice (start stop step : Option ℤ)
  | nonSlice
deriving DecidableEq, Repr

/-- The length of Python's `range(s, e, st)` for `st ≠ 0`. -/
def pyRangeLen (s e st : ℤ) : ℕ :=
  if st > 0 then ((e - s + st - 1) / st).toNat
  else ((s - e + (-st) - 1) / (-st)).toNat

/-- Python's `range(s, e, st)` as a list (`st ≠ 0`). -/
def pyRange (s e st : ℤ) : List ℤ :=
  (List.range (pyRangeLen s e st)).map (fun (k : ℕ) => s + st * (k : ℤ))

/-- Python's `key.step or 1` for an optional slice step: `None` and `0`
both become `1` (falsy-or). -/
def pyStepOf (c : Option ℤ) : ℤ :=
  match c with
  | none => 1
  | some y => if y = 0 then 1 else y

/-- `Factory.__getitem__`: a non-slice key raises `TypeError("Only slice
indexing is supported")`; a slice without a stop raises
`TypeError("Slice stop value is required")`; otherwise one record is
built per element of `range(key.start or 0, key.stop, key.step or 1)`
(note the Python falsy-or: a start of `0`/`None` becomes `0`, a step of
`0`/`None` becomes `1`).  Successive `self.build()` calls are modelled
by the function `build` applied to the call index. -/
def factoryGetItem {α : Type} (build : ℕ → α) (key : PyKey) : Except BuildErr (List α) :=
  match key with
  | .nonSlice => .error (.typeErr "Only slice indexing is supported")
  | .slice start stop step =>
    match stop with
    | none => .error (.typeErr "Slice stop value is required")
    | some e =>
      let s : ℤ := match start with | none => 0 | some a => a
      let st : ℤ := match step with | none => 1 | some b => if b = 0 then 1 else b
      .ok ((List.range (pyRange s e st).length).map build)

/-! ## Override application

From `factoreally/factory.py`: `_parse_field_path`,
`_set_nested_value(_from_parts)`, `_get_nested_value(_from_parts)` and
`_apply_overrides`.  A callable override with one positional parameter
is modelled as a Lean function applied to the current field value
(`_resolve_callable_override` with `positional_count == 1`); scalar
overrides carry the value directly. -/

/-- One component of a parsed override path: an object key or a numeric
array index. -/
inductive PathPart where
  | key (k : String)
  | idx (i : ℕ)
deriving DecidableEq, Repr

/-- Digits to a natural number (Python `int(index_str)` after
`index_str.isdigit()`). -/
def digitsToNat (cs : List Char) : ℕ :=
  cs.foldl (fun acc c => acc * 10 + (c.toNat - 48)) 0

/-- Emit the pending `current_part` if it is nonempty. -/
def pushCur (cur : String) : List PathPart :=
  if cur = "" then [] else [.key cur]

/-- `Factory._parse_field_path` (lines 192-232): scan the path character
by character; `.` closes the pending part; `[` closes the pending part
and scans for `]` — digits between the brackets become an index part,
anything else between them is dropped, and a `[` with no closing `]`
is kept as a literal character of the pending part. -/
def parsePartsF : ℕ → List Char → String → List PathPart
  | 0, _, cur => pushCur cur
  | fuel + 1, cs, cur =>
    match cs with
    | [] => pushCur cur
    | c :: rest =>
      if c = '.' then pushCur cur ++ parsePartsF fuel rest ""
      else if c = '[' then
        let after := rest.dropWhile (fun x => x ≠ ']')
        let inside := rest.takeWhile (fun x => x ≠ ']')
        if after.isEmpty then pushCur cur ++ parsePartsF fuel rest "["
        else
          pushCur cur ++
            (if inside ≠ [] ∧ inside.all Char.isDigit then [.idx (digitsToNat inside)] else [])
            ++ parsePartsF fuel after.tail ""
      else parsePartsF fuel rest (cur.push c)

/-- `Factory._parse_field_path` on a string.  The fuel argument of
`parsePartsF` is an embedding artifact: every step of the source's scan
advances the cursor by at least one character, so `length + 1` steps
always complete the scan. -/
def parseFieldPath (path : String) : List PathPart :=
  parsePartsF (path.data.length + 1) path.data ""

/-- Python dict assignment `d[k] = v` on an ordered association list:
update in place when the key exists, append otherwise. -/
def objSet : List (String × Value) → String → Value → List (String × Value)
  | [], k, v => [(k, v)]
  | (k0, v0) :: t, k, v =>
    if k0 = k then (k0, v) :: t else (k0, v0) :: objSet t k v

/-- Python list assignment with `None`-padding:
`data.extend([None, ...]); data[i] = value` when the list is short
(final integer part of `_set_nested_value_from_parts`). -/
def listSetPad (xs : List Value) (i : ℕ) (v : Value) : List Value :=
  if xs.length ≤ i then (xs ++ List.replicate (i + 1 - xs.length) Value.pynull).set i v
  else xs.set i v

/-- `Factory._set_nested_value_from_parts` (lines 113-173).  Final part:
an integer index pads-and-sets a list (and silently does nothing on a
non-list); a string key broadcasts over the dict elements of a list,
skips `None`, assigns into a dict, and raises `TypeError` on any other
value.  Intermediate part: an integer index navigates in-range list
elements and silently skips otherwise; a string key broadcasts the whole
remaining path over the dict elements of a list, skips `None`, navigates
(creating `[]`/`{}` for a missing key depending on the next part) in a
dict, and raises `TypeError` otherwise (Python's `in` on a non-dict).
The fuel argument is an embedding artifact standing for the source's
call stack: every recursive call either shortens the part list or
descends into a structurally smaller value, so the fuel chosen by
`setNested` below is never exhausted. -/
def setFromPartsF : ℕ → Value → List PathPart → Value → Except BuildErr Value
  | 0, data, _, _ => .ok data
  | fuel + 1, data, parts, value =>
    match parts with
    | [] => .ok data
    | [p] =>
      match p with
      | .idx i =>
        match data with
        | .arr xs => .ok (.arr (listSetPad xs i value))
        | _ => .ok data
      | .key k =>
        match data with
        | .arr xs => .ok (.arr (xs.map (fun item =>
            match item with
            | .obj kvs => .obj (objSet kvs k value)
            | other => other)))
        | .pynull => .ok .pynull
        | .obj kvs => .ok (.obj (objSet kvs k value))
        | _ => .error (.typeErr "item assignment")
    | p :: ps =>
      match p with
      | .idx i =>
        match data with
        | .arr xs =>
          if h : i < xs.length then do
            let nv ← setFromPartsF fuel xs[i] ps value
            .ok (.arr (xs.set i nv))
          else .ok data
        | _ => .ok data
      | .key k =>
        match data with
        | .arr xs => do
          let xs2 ← xs.mapM (fun item =>
            match item with
            | .obj kvs => setFromPartsF fuel (.obj kvs) (PathPart.key k :: ps) value
            | other => pure other)
          .ok (.arr xs2)
        | .pynull => .ok .pynull
        | .obj kvs =>
          match alistGet kvs k with
          | some child => do
            let nv ← setFromPartsF fuel child ps value
            .ok (.obj (objSet kvs k nv))
          | none =>
            let init : Value :=
              match ps with
              | .idx _ :: _ => .arr []
              | _ => .obj []
            do
              let nv ← setFromPartsF fuel init ps value
              .ok (.obj (objSet kvs k nv))
        | _ => .error (.typeErr "argument of this type is not iterable")

/-- `Factory._set_nested_value` (lines 175-190): a path without `.` and
`[` is a plain top-level dict assignment, anything else goes through the
parsed parts. -/
def setNested (data : Value) (path : String) (value : Value) : Except BuildErr Value :=
  if ¬ path.data.contains '.' ∧ ¬ path.data.contains '[' then
    match data with
    | .obj kvs => .ok (.obj (objSet kvs path value))
    | _ => .error (.typeErr "item assignment")
  else
    let parts := parseFieldPath path
    setFromPartsF ((parts.length + 1) * (data.vsize + 2)) data parts value

/-- `Factory._get_nested_value_from_parts` (lines 252-286): look up the
path, returning Python `None` when it does not exist; Python's
`if next_data is not None` also stops at an explicit `None` value. -/
def getFromParts : Value → List PathPart → Value
  | data, [] => data
  | data, [p] =>
    match p, data with
    | .idx i, .arr xs => if h : i < xs.length then xs[i] else .pynull
    | .key k, .obj kvs => (alistGet kvs k).getD .pynull
    | _, _ => .pynull
  | data, p :: ps =>
    let nextData : Option Value :=
      match p, data with
      | .idx i, .arr xs => if h : i < xs.length then some xs[i] else none
      | .key k, .obj kvs => alistGet kvs k
      | _, _ => none
    match nextData with
    | some .pynull => .pynull
    | some nd => getFromParts nd ps
    | none => .pynull

/-- `Factory._get_nested_value` (lines 234-250). -/
def getNested (data : Value) (path : String) : Value :=
  if ¬ path.data.contains '.' ∧ ¬ path.data.contains '[' then
    match data with
    | .obj kvs => (alistGet kvs path).getD .pynull
    | _ => .pynull
  else
    getFromParts data (parseFieldPath path)

/-- An override value: a plain (non-callable) value, or a callable with
one positional parameter which receives the current field value. -/
inductive OverrideV where
  | scalar (v : Value)
  | call1 (f : Value → Value)

/-- `Factory._apply_overrides` (lines 83-111): for each override in
order, resolve a callable against the current field value and set the
result, or set a scalar directly. -/
def applyOverrides : Value → List (String × OverrideV) → Except BuildErr Value
  | data, [] => .ok data
  | data, (path, ov) :: rest => do
    let data1 ←
      match ov with
      | .scalar v => setNested data path v
      | .call1 f => setNested data path (f (getNested data path))
    applyOverrides data1 rest

/-! ## The string pattern recognizer

From `factoreally/analyzers/string_pattern_analyzer.py`: the ordered
list `PATTERN_HINT_CREATORS` of detectors, each of which matches a
regular expression against every observed string value.  The regular
expressions are embedded as executable character-level matchers; the
range/example payloads that some creators compute from the parsed
values (datetime min/max, duration min/max/avg, version examples) are
not inspected by any claim and are not modelled — only which creator
fires first is at stake.  (Parse failures inside a creator can only
turn a regex-matching value set into "no hint", which never makes a
later detector fire earlier; the theorems below only ever conclude
that pre-TEXT creators yield no hint from a value that fails their
regex, which holds in either reading.) -/

/-- A single position of a fixed-shape regular expression: a digit, a
fixed literal, a `[+-]` sign, a hex digit (`[0-9A-Fa-f]`), a lowercase
hex digit, or a `[:-]` separator. -/
inductive CPat where
  | digit
  | lit (c : Char)
  | pm
  | hex
  | hexLower
  | sep
deriving DecidableEq, Repr

/-- Does one character match one pattern position? -/
def cmatch : CPat → Char → Bool
  | .digit, c => c.isDigit
  | .lit a, c => c = a
  | .pm, c => c = '+' || c = '-'
  | .hex, c => c.isDigit || ('a' ≤ c && c ≤ 'f') || ('A' ≤ c && c ≤ 'F')
  | .hexLower, c => c.isDigit || ('a' ≤ c && c ≤ 'f')
  | .sep, c => c = ':' || c = '-'

/-- Match a fixed-shape pattern against a character list (anchored at
both ends, like the source's `re.match(..., v)` with a `$`-terminated
pattern). -/
def matchFixed : List CPat → List Char → Bool
  | [], [] => true
  | p :: pt, c :: ct => cmatch p c && matchFixed pt ct
  | _, _ => false

/-- `n` digit positions. -/
def dpat (n : ℕ) : List CPat := List.replicate n .digit

/-- `\d{4}-\d{2}-\d{2}T\d{2}:\d{2}:\d{2}` — the 19-character date-time
core shared by the ISO patterns. -/
def patIso19 : List CPat :=
  dpat 4 ++ [.lit '-'] ++ dpat 2 ++ [.lit '-'] ++ dpat 2 ++ [.lit 'T'] ++
    dpat 2 ++ [.lit ':'] ++ dpat 2 ++ [.lit ':'] ++ dpat 2

def patIsoZ20 : List CPat := patIso19 ++ [.lit 'Z']

def patIsoOff25 : List CPat := patIso19 ++ [.pm] ++ dpat 2 ++ [.lit ':'] ++ dpat 2

def patIsoMicro32 : List CPat :=
  patIso19 ++ [.lit '.'] ++ dpat 6 ++ [.pm] ++ dpat 2 ++ [.lit ':'] ++ dpat 2

def patDtSpace19 : List CPat :=
  dpat 4 ++ [.lit '-'] ++ dpat 2 ++ [.lit '-'] ++ dpat 2 ++ [.lit ' '] ++
    dpat 2 ++ [.lit ':'] ++ dpat 2 ++ [.lit ':'] ++ dpat 2

def patDtUs19 : List CPat :=
  dpat 2 ++ [.lit '/'] ++ dpat 2 ++ [.lit '/'] ++ dpat 4 ++ [.lit ' '] ++
    dpat 2 ++ [.lit ':'] ++ dpat 2 ++ [.lit ':'] ++ dpat 2

def patMac17 : List CPat :=
  [.hex, .hex, .sep, .hex, .hex, .sep, .hex, .hex, .sep, .hex, .hex, .sep,
   .hex, .hex, .sep, .hex, .hex]

def patUuid36 : List CPat :=
  List.replicate 8 CPat.hexLower ++ [.lit '-'] ++ List.replicate 4 CPat.hexLower ++
    [.lit '-'] ++ List.replicate 4 CPat.hexLower ++ [.lit '-'] ++
    List.replicate 4 CPat.hexLower ++ [.lit '-'] ++ List.replicate 12 CPat.hexLower

def patDate10 : List CPat :=
  dpat 4 ++ [.lit '-'] ++ dpat 2 ++ [.lit '-'] ++ dpat 2

/-- `create_iso_mixed_tz_hint`:
`^\d{4}-\d{2}-\d{2}T\d{2}:\d{2}:\d{2}(?:Z|[+-]\d{2}:\d{2})$`. -/
def matchIsoMixedTz (s : String) : Bool :=
  matchFixed patIsoZ20 s.data || matchFixed patIsoOff25 s.data

/-- `digits* 'Z'` with nothing after the `Z`. -/
def digitsZ : List Char → Bool
  | [] => false
  | [c] => c = 'Z'
  | c :: rest => c.isDigit && digitsZ rest

/-- `\.\d+Z` — the optional fractional tail of the Z-mixed pattern. -/
def fracZTail : List Char → Bool
  | c :: d :: rest => c = '.' && d.isDigit && digitsZ (d :: rest)
  | _ => false

/-- `create_iso_z_mixed_hint`:
`^\d{4}-\d{2}-\d{2}T\d{2}:\d{2}:\d{2}(?:\.\d+)?Z$`. -/
def matchIsoZMixed (s : String) : Bool :=
  matchFixed patIsoZ20 s.data ||
    (matchFixed patIso19 (s.data.take 19) && fracZTail (s.data.drop 19))

/-- `create_iso_with_tz_microseconds_hint`:
`^\d{4}-\d{2}-\d{2}T\d{2}:\d{2}:\d{2}\.\d{6}[+-]\d{2}:\d{2}$`. -/
def matchIsoMicro (s : String) : Bool := matchFixed patIsoMicro32 s.data

/-- `create_unix_seconds_hint`: `^\d{10}$`. -/
def matchUnix10 (s : String) : Bool := matchFixed (dpat 10) s.data

/-- `create_unix_milliseconds_hint`: `^\d{13}$`. -/
def matchUnix13 (s : String) : Bool := matchFixed (dpat 13) s.data

/-- `create_datetime_space_hint`: `^\d{4}-\d{2}-\d{2} \d{2}:\d{2}:\d{2}$`. -/
def matchDtSpace (s : String) : Bool := matchFixed patDtSpace19 s.data

/-- `create_datetime_us_hint`: `^\d{2}/\d{2}/\d{4} \d{2}:\d{2}:\d{2}$`. -/
def matchDtUs (s : String) : Bool := matchFixed patDtUs19 s.data

/-- Split a character list at every occurrence of a separator, like
Python `str.split(sep)` (and `String.splitOn` for a one-character
separator). -/
def splitOnChar (sep : Char) : List Char → List (List Char)
  | [] => [[]]
  | c :: rest =>
    match splitOnChar sep rest with
    | [] => [[]]
    | grp :: rest2 =>
      if c = sep then [] :: grp :: rest2 else (c :: grp) :: rest2

/-- Exactly two digits. -/
def twoDigits : List Char → Bool
  | [a, b] => a.isDigit && b.isDigit
  | _ => false

/-- One or two digits (`\d{1,2}`). -/
def oneTwoDigits : List Char → Bool
  | [a] => a.isDigit
  | [a, b] => a.isDigit && b.isDigit
  | _ => false

/-- `\d{2}(\.\d+)?` — the seconds component of the flexible duration
pattern. -/
def secPart : List Char → Bool
  | a :: b :: rest =>
    a.isDigit && b.isDigit &&
      (match rest with
       | [] => true
       | '.' :: d :: ds => d.isDigit && (d :: ds).all Char.isDigit
       | _ => false)
  | _ => false

/-- `(\d+\.)?\d{1,2}` — the day-and-hour component of the flexible
duration pattern. -/
def dayHourPart (t : List Char) : Bool :=
  oneTwoDigits t ||
    (let ds := t.takeWhile Char.isDigit
     let rest := t.dropWhile Char.isDigit
     !ds.isEmpty &&
       match rest with
       | '.' :: hh => oneTwoDigits hh
       | _ => false)

/-- `create_duration_hint`'s flexible pattern
`^(\d+\.)?(\d{1,2}):(\d{2}):(\d{2})(\.(\d+))?$`.  The leading
character-class conjunct is implied by the pattern (its language uses
only digits, `:` and `.`) and is carried explicitly so that the
matched language is transparently space-free. -/
def matchDurationFlex (s : String) : Bool :=
  s.data.all (fun c => c.isDigit || c = ':' || c = '.') &&
    (match splitOnChar ':' s.data with
     | [pre, mm, ss] => dayHourPart pre && twoDigits mm && secPart ss
     | _ => false)

/-- `digits* c` with nothing after, used for `P\d+D` / `P\d+W`. -/
def digitsThenLast (last : Char) : List Char → Bool
  | [] => false
  | [c] => c = last
  | c :: rest => c.isDigit && digitsThenLast last rest

/-- `create_duration_iso8601_days_hint`: `^P\d+D$`. -/
def matchPDays (s : String) : Bool :=
  match s.data with
  | p :: d :: rest => p = 'P' && d.isDigit && digitsThenLast 'D' (d :: rest)
  | _ => false

/-- `create_duration_iso8601_weeks_hint`: `^P\d+W$`. -/
def matchPWeeks (s : String) : Bool :=
  match s.data with
  | p :: d :: rest => p = 'P' && d.isDigit && digitsThenLast 'W' (d :: rest)
  | _ => false

/-- `create_auth0_id_hint`: `v.startswith("auth0|")`. -/
def matchAuth0 (s : String) : Bool :=
  s.data.take 6 = ['a', 'u', 't', 'h', '0', '|']

/-- `create_mac_address_hint`: `^([0-9A-Fa-f]{2}[:-]){5}([0-9A-Fa-f]{2})$`. -/
def matchMacAddr (s : String) : Bool := matchFixed patMac17 s.data

/-- `create_uuid_hint`: the canonical 8-4-4-4-12 hex shape matched
against `v.lower()`. -/
def matchUuid (s : String) : Bool := matchFixed patUuid36 (s.data.map Char.toLower)

/-- `create_version_hint`: `^\d+\.\d+\.\d+(\.\d+)?$` (three or four
nonempty digit runs separated by dots; the character-class conjunct is
implied by the pattern). -/
def matchVersion (s : String) : Bool :=
  s.data.all (fun c => c.isDigit || c = '.') &&
    (match splitOnChar '.' s.data with
     | [a, b, c] => !a.isEmpty && !b.isEmpty && !c.isEmpty
     | [a, b, c, d] => !a.isEmpty && !b.isEmpty && !c.isEmpty && !d.isEmpty
     | _ => false)

/-- `create_version_short_hint`: `^\d+\.\d+$`. -/
def matchVersionShort (s : String) : Bool :=
  s.data.all (fun c => c.isDigit || c = '.') &&
    (match splitOnChar '.' s.data with
     | [a, b] => !a.isEmpty && !b.isEmpty
     | _ => false)

/-- `create_date_hint`: `^\d{4}-\d{2}-\d{2}$`. -/
def matchDate (s : String) : Bool := matchFixed patDate10 s.data

/-- `create_numeric_string_hint`: Python `v.isdigit()`. -/
def matchNumstr (s : String) : Bool := !s.data.isEmpty && s.data.all Char.isDigit

/-- The "long text" test of `create_text_hint`: more than 30 characters
and at least 5 spaces. -/
def isLongText (s : String) : Bool :=
  decide (30 < s.length) && decide (5 ≤ s.data.count ' ')

/-- The hints produced by the pattern recognizer and the alphanumeric
analyzer, at the granularity the claims inspect: each creator's tag,
the `pattern_type` of version hints, the duration format, and the
min/max length payload of `TextHint`. -/
inductive PatternHint where
  | datetime
  | durationFmt (fmt : String)
  | auth0Id
  | macAddress
  | uuid4
  | version (patternType : String)
  | date
  | numstr
  | text (mn mx : ℕ)
  | alpha
deriving DecidableEq, Repr

/-- Does a flexible-duration value carry a day component (regex group 1,
i.e. a dot before the first colon)? -/
def hasDays (s : String) : Bool :=
  match splitOnChar ':' s.data with
  | pre :: _ => pre.contains '.'
  | _ => false

/-- Does a flexible-duration value carry a fractional component (regex
group 5, i.e. a dot in the seconds component)? -/
def hasFrac (s : String) : Bool :=
  match splitOnChar ':' s.data with
  | [_, _, ss] => ss.contains '.'
  | _ => false

/-- `_determine_duration_format` applied over the values, as in
`create_duration_hint`. -/
def durationFmtOf (vs : List String) : String :=
  if vs.any hasDays && vs.any hasFrac then "D.HMS.F"
  else if vs.any hasDays then "D.HMS"
  else "HMS"

def cIsoMixedTz (vs : List String) : Option PatternHint :=
  if vs.all matchIsoMixedTz then some .datetime else none

def cIsoZMixed (vs : List String) : Option PatternHint :=
  if vs.all matchIsoZMixed then some .datetime else none

def cIsoMicro (vs : List String) : Option PatternHint :=
  if vs.all matchIsoMicro then some .datetime else none

def cUnix10 (vs : List String) : Option PatternHint :=
  if vs.all matchUnix10 then some .datetime else none

def cUnix13 (vs : List String) : Option PatternHint :=
  if vs.all matchUnix13 then some .datetime else none

def cDtSpace (vs : List String) : Option PatternHint :=
  if vs.all matchDtSpace then some .datetime else none

def cDtUs (vs : List String) : Option PatternHint :=
  if vs.all matchDtUs then some .datetime else none

def cDuration (vs : List String) : Option PatternHint :=
  if vs.isEmpty then none
  else if vs.all matchDurationFlex then some (.durationFmt (durationFmtOf vs)) else none

def cPDays (vs : List String) : Option PatternHint :=
  if vs.all matchPDays then some (.durationFmt "ISO8601_Days") else none

def cPWeeks (vs : List String) : Option PatternHint :=
  if vs.all matchPWeeks then some (.durationFmt "ISO8601_Weeks") else none

def cAuth0 (vs : List String) : Option PatternHint :=
  if vs.all matchAuth0 then some .auth0Id else none

def cMacAddr (vs : List String) : Option PatternHint :=
  if vs.all matchMacAddr then some .macAddress else none

def cUuid (vs : List String) : Option PatternHint :=
  if vs.all matchUuid then some .uuid4 else none

def cVersion (vs : List String) : Option PatternHint :=
  if vs.all matchVersion then some (.version "Version") else none

def cVersionShort (vs : List String) : Option PatternHint :=
  if vs.all matchVersionShort then some (.version "Version_Short") else none

def cDate (vs : List String) : Option PatternHint :=
  if vs.all matchDate then some .date else none

def cNumstr (vs : List String) : Option PatternHint :=
  if vs.all matchNumstr then some .numstr else none

/-- `create_text_hint`: strictly more than 25% of the values are long
strings with at least five spaces; the payload records the min/max of
the observed lengths. -/
def cText (vs : List String) : Option PatternHint :=
  if vs.isEmpty then none
  else if vs.length < 4 * (vs.filter isLongText).length then
    some (.text (((vs.map String.length).minimum?).getD 0)
                (((vs.map String.length).maximum?).getD 0))
  else none

/-- `PATTERN_HINT_CREATORS` (string_pattern_analyzer.py, lines
347-371), in source order: the seven datetime creators, the three
duration creators, AUTH0_ID, MAC, UUID4, the two version creators,
DATE, NUMSTR, and TEXT last. -/
def patternHintCreators : List (List String → Option PatternHint) :=
  [cIsoMixedTz, cIsoZMixed, cIsoMicro, cUnix10, cUnix13, cDtSpace, cDtUs,
   cDuration, cPDays, cPWeeks,
   cAuth0, cMacAddr, cUuid, cVersion, cVersionShort, cDate,
   cNumstr,
   cText]

/-- First creator that produces a hint wins. -/
def firstHit : List (List String → Option PatternHint) → List String → Option PatternHint
  | [], _ => none
  | c :: rest, vs =>
    match c vs with
    | some h => some h
    | none => firstHit rest vs

/-- `StringPatternAnalyzer.analyze_all` on the distinct string values of
a field: no hint for an empty value set, otherwise the first matching
creator's hint. -/
def stringPatternAnalyze (vs : List String) : Option PatternHint :=
  if vs.isEmpty then none else firstHit patternHintCreators vs

/-- Modelled from the spec: `factoreally/constants.py` is not under
`src/`; the spec gives the alphanumeric analyzer's distinct-value
threshold as 10 ("Requires ≥ threshold distinct values (e.g., 10)"). -/
def MIN_VALUES_FOR_ALPLHANUMERIC : ℕ := 10

/-- `AlphanumericAnalyzer.analyze_field_value_counts` on the distinct
string values of a field: at least the threshold many distinct values,
all of one length (the per-position charset payload is not inspected by
any claim and is reduced to the `alpha` tag). -/
def alphanumericAnalyze (vs : List String) : Option PatternHint :=
  if vs.length < MIN_VALUES_FOR_ALPLHANUMERIC then none
  else
    match vs with
    | [] => none
    | v :: rest =>
      if rest.all (fun w => w.length = v.length) then some .alpha else none

/-- The analysis cascade of `create_spec.py` (lines 80-84) for a field
whose distinct values are all strings: the numeric analyzer rejects
such a field by its type check, the string pattern analyzer is
consulted next, and the alphanumeric analyzer only runs when the whole
pattern recognizer — the TEXT creator included — produced nothing. -/
def stringFieldHint (vs : List String) : Option PatternHint :=
  match stringPatternAnalyze vs with
  | some h => some h
  | none => alphanumericAnalyze vs

/-! ## Support for override idempotence

The closed form of applying a map of plain top-level overrides: a left
fold of Python dict assignment. -/

/-- Apply a list of top-level dict assignments in order. -/
def foldSetScalar : List (String × Value) → List (String × Value) → List (String × Value)
  | kvs, [] => kvs
  | kvs, (p, v) :: rest => foldSetScalar (objSet kvs p v) rest

/-- The last value written for a key by a list of assignments. -/
def lastVal : List (String × Value) → String → Option Value
  | [], _ => none
  | (p, v) :: rest, k =>
    match lastVal rest k with
    | some w => some w
    | none => if p = k then some v else none

/-- Ten distinct strings, all of length 32, each with six spaces: they
satisfy the ALPHA criterion (≥ 10 distinct values of one shared length)
and the TEXT criterion (every value exceeds 30 characters and has ≥ 5
spaces) at the same time. -/
def c6Values : List String :=
  ["lorem ipsum dolor sit amet one 0",
   "lorem ipsum dolor sit amet one 1",
   "lorem ipsum dolor sit amet one 2",
   "lorem ipsum dolor sit amet one 3",
   "lorem ipsum dolor sit amet one 4",
   "lorem ipsum dolor sit amet one 5",
   "lorem ipsum dolor sit amet one 6",
   "lorem ipsum dolor sit amet one 7",
   "lorem ipsum dolor sit amet one 8",
   "lorem ipsum dolor sit amet one 9"]

theorem pyRoundInt_intCast (k : ℤ) : pyRoundInt (k : ℚ) = k := by
  simp [pyRoundInt]

theorem floor_le_pyRoundInt (q : ℚ) : ⌊q⌋ ≤ pyRoundInt q := by
  unfold pyRoundInt
  split_ifs <;> omega

theorem pyRoundInt_le_floor_add_one (q : ℚ) : pyRoundInt q ≤ ⌊q⌋ + 1 := by
  unfold pyRoundInt
  split_ifs <;> omega

theorem pyRoundInt_mono {a b : ℚ} (h : a ≤ b) : pyRoundInt a ≤ pyRoundInt b := by
  have hfl : ⌊a⌋ ≤ ⌊b⌋ := Int.floor_le_floor h
  rcases eq_or_lt_of_le hfl with heq | hlt
  · unfold pyRoundInt
    rw [← heq]
    have hra : a - (⌊a⌋ : ℚ) ≤ b - (⌊a⌋ : ℚ) := by linarith
    split_ifs <;> first | omega | linarith
  · calc pyRoundInt a ≤ ⌊a⌋ + 1 := pyRoundInt_le_floor_add_one a
      _ ≤ ⌊b⌋ := by omega
      _ ≤ pyRoundInt b := floor_le_pyRoundInt b

theorem pyRoundTo_mono (n : ℕ) {a b : ℚ} (h : a ≤ b) : pyRoundTo n a ≤ pyRoundTo n b := by
  unfold pyRoundTo
  have hp : (0 : ℚ) < 10 ^ n := by positivity
  have hm : a * 10 ^ n ≤ b * 10 ^ n :=
    mul_le_mul_of_nonneg_right h (le_of_lt hp)
  have h2 : ((pyRoundInt (a * 10 ^ n) : ℚ)) ≤ ((pyRoundInt (b * 10 ^ n) : ℚ)) := by
    exact_mod_cast pyRoundInt_mono hm
  exact div_le_div_of_nonneg_right h2 hp.le

theorem ratRound_mono (prec : Option ℕ) {a b : ℚ} (h : a ≤ b) :
    ratRound prec a ≤ ratRound prec b := by
  cases prec with
  | none => simpa [ratRound] using pyRoundInt_mono h
  | some n => simpa [ratRound] using pyRoundTo_mono n h

theorem pyRoundTo_intCast (n : ℕ) (k : ℤ) : pyRoundTo n (k : ℚ) = (k : ℚ) := by
  unfold pyRoundTo
  have : ((k : ℚ) * 10 ^ n) = ((k * 10 ^ n : ℤ) : ℚ) := by push_cast; ring
  rw [this, pyRoundInt_intCast]
  push_cast
  field_simp

theorem ratRound_pyRoundN (prec : Option ℕ) (v : PyNum) :
    (pyRoundN prec v).toRat = ratRound prec v.toRat := by
  cases prec with
  | none => cases v <;> simp [pyRoundN, ratRound, PyNum.toRat]
  | some n =>
    cases v with
    | i k => simp [pyRoundN, ratRound, PyNum.toRat, pyRoundTo_intCast]
    | f q => simp [pyRoundN, ratRound, PyNum.toRat]

theorem matchFixed_length {pat : List CPat} {cs : List Char}
    (h : matchFixed pat cs = true) : cs.length = pat.length := by
  induction pat generalizing cs with
  | nil => cases cs with
    | nil => rfl
    | cons c ct => simp [matchFixed] at h
  | cons p pt ih =>
    cases cs with
    | nil => simp [matchFixed] at h
    | cons c ct =>
      simp only [matchFixed, Bool.and_eq_true] at h
      simp [ih h.2]

theorem matchFixed_no_space {pat : List CPat} {cs : List Char}
    (hp : pat.all (fun p => !cmatch p ' ') = true)
    (h : matchFixed pat cs = true) : ' ' ∉ cs := by
  induction pat generalizing cs with
  | nil =>
    cases cs with
    | nil => simp
    | cons c ct => simp [matchFixed] at h
  | cons p pt ih =>
    cases cs with
    | nil => simp
    | cons c ct =>
      simp only [matchFixed, Bool.and_eq_true] at h
      simp only [List.all_cons, Bool.and_eq_true, Bool.not_eq_true'] at hp
      intro hmem
      rcases List.mem_cons.mp hmem with heq | hm
      · rw [← heq] at h
        rw [hp.1] at h
        exact Bool.false_ne_true h.1
      · exact ih hp.2 h.2 hm

theorem digitsZ_no_space {l : List Char} (h : digitsZ l = true) : ' ' ∉ l := by
  induction l with
  | nil => simp
  | cons c rest ih =>
    cases rest with
    | nil =>
      simp only [digitsZ, decide_eq_true_eq] at h
      simp [h]
    | cons d ds =>
      simp only [digitsZ, Bool.and_eq_true] at h
      intro hmem
      rcases List.mem_cons.mp hmem with heq | hm
      · rw [← heq] at h
        simp [Char.isDigit] at h
      · exact ih h.2 hm

theorem fracZTail_no_space {l : List Char} (h : fracZTail l = true) : ' ' ∉ l := by
  cases l with
  | nil => simp [fracZTail] at h
  | cons c rest =>
    cases rest with
    | nil => simp [fracZTail] at h
    | cons d ds =>
      simp only [fracZTail, Bool.and_eq_true, decide_eq_true_eq] at h
      intro hmem
      rcases List.mem_cons.mp hmem with heq | hm
      · rw [h.1.1] at heq
        exact absurd heq (by decide)
      · exact digitsZ_no_space h.2 hm

theorem digitsThenLast_no_space {last : Char} {l : List Char} (hl : last ≠ ' ')
    (h : digitsThenLast last l = true) : ' ' ∉ l := by
  induction l with
  | nil => simp
  | cons c rest ih =>
    cases rest with
    | nil =>
      simp only [digitsThenLast, decide_eq_true_eq] at h
      subst h
      intro hmem
      exact hl (List.mem_singleton.mp hmem).symm
    | cons d ds =>
      simp only [digitsThenLast, Bool.and_eq_true] at h
      intro hmem
      rcases List.mem_cons.mp hmem with heq | hm
      · rw [← heq] at h
        simp [Char.isDigit] at h
      · exact ih h.2 hm

theorem matchIsoMixedTz_of_space {v : String} (hsp : ' ' ∈ v.data) :
    matchIsoMixedTz v = false := by
  unfold matchIsoMixedTz
  rw [Bool.or_eq_false_iff]
  constructor
  · cases h : matchFixed patIsoZ20 v.data with
    | false => rfl
    | true => exact absurd hsp (matchFixed_no_space (by decide) h)
  · cases h : matchFixed patIsoOff25 v.data with
    | false => rfl
    | true => exact absurd hsp (matchFixed_no_space (by decide) h)

theorem matchIsoZMixed_of_space {v : String} (hsp : ' ' ∈ v.data) :
    matchIsoZMixed v = false := by
  unfold matchIsoZMixed
  rw [Bool.or_eq_false_iff]
  constructor
  · cases h : matchFixed patIsoZ20 v.data with
    | false => rfl
    | true => exact absurd hsp (matchFixed_no_space (by decide) h)
  · rw [Bool.and_eq_false_iff]
    have hsplit : ' ' ∈ v.data.take 19 ∨ ' ' ∈ v.data.drop 19 := by
      rw [← List.mem_append, List.take_append_drop]
      exact hsp
    rcases hsplit with h19 | hdrop
    · left
      cases h : matchFixed patIso19 (v.data.take 19) with
      | false => rfl
      | true => exact absurd h19 (matchFixed_no_space (by decide) h)
    · right
      cases h : fracZTail (v.data.drop 19) with
      | false => rfl
      | true => exact absurd hdrop (fracZTail_no_space h)

theorem matchIsoMicro_of_space {v : String} (hsp : ' ' ∈ v.data) :
    matchIsoMicro v = false := by
  unfold matchIsoMicro
  cases h : matchFixed patIsoMicro32 v.data with
  | false => rfl
  | true => exact absurd hsp (matchFixed_no_space (by decide) h)

theorem matchUnix10_of_space {v : String} (hsp : ' ' ∈ v.data) :
    matchUnix10 v = false := by
  unfold matchUnix10
  cases h : matchFixed (dpat 10) v.data with
  | false => rfl
  | true => exact absurd hsp (matchFixed_no_space (by decide) h)

theorem matchUnix13_of_space {v : String} (hsp : ' ' ∈ v.data) :
    matchUnix13 v = false := by
  unfold matchUnix13
  cases h : matchFixed (dpat 13) v.data with
  | false => rfl
  | true => exact absurd hsp (matchFixed_no_space (by decide) h)

theorem matchDtSpace_of_long {v : String} (hlen : 30 < v.data.length) :
    matchDtSpace v = false := by
  unfold matchDtSpace
  cases h : matchFixed patDtSpace19 v.data with
  | false => rfl
  | true =>
    have := matchFixed_length h
    rw [this] at hlen
    exact absurd hlen (by decide)

theorem matchDtUs_of_long {v : String} (hlen : 30 < v.data.length) :
    matchDtUs v = false := by
  unfold matchDtUs
  cases h : matchFixed patDtUs19 v.data with
  | false => rfl
  | true =>
    have := matchFixed_length h
    rw [this] at hlen
    exact absurd hlen (by decide)

theorem matchDurationFlex_of_space {v : String} (hsp : ' ' ∈ v.data) :
    matchDurationFlex v = false := by
  unfold matchDurationFlex
  rw [Bool.and_eq_false_iff]
  left
  rw [List.all_eq_false]
  exact ⟨' ', hsp, by decide⟩

theorem matchPDays_of_space {v : String} (hsp : ' ' ∈ v.data) :
    matchPDays v = false := by
  cases h : matchPDays v with
  | false => rfl
  | true =>
    exfalso
    unfold matchPDays at h
    rcases hvd : v.data with _ | ⟨p, _ | ⟨d, rest⟩⟩ <;> rw [hvd] at h hsp
    · simp at h
    · simp at h
    · simp only [Bool.and_eq_true, decide_eq_true_eq] at h
      rcases List.mem_cons.mp hsp with heq | hm
      · rw [h.1.1] at heq
        exact absurd heq (by decide)
      · exact absurd hm (digitsThenLast_no_space (by decide) h.2)

theorem matchPWeeks_of_space {v : String} (hsp : ' ' ∈ v.data) :
    matchPWeeks v = false := by
  cases h : matchPWeeks v with
  | false => rfl
  | true =>
    exfalso
    unfold matchPWeeks at h
    rcases hvd : v.data with _ | ⟨p, _ | ⟨d, rest⟩⟩ <;> rw [hvd] at h hsp
    · simp at h
    · simp at h
    · simp only [Bool.and_eq_true, decide_eq_true_eq] at h
      rcases List.mem_cons.mp hsp with heq | hm
      · rw [h.1.1] at heq
        exact absurd heq (by decide)
      · exact absurd hm (digitsThenLast_no_space (by decide) h.2)

theorem matchMacAddr_of_space {v : String} (hsp : ' ' ∈ v.data) :
    matchMacAddr v = false := by
  unfold matchMacAddr
  cases h : matchFixed patMac17 v.data with
  | false => rfl
  | true => exact absurd hsp (matchFixed_no_space (by decide) h)

theorem matchUuid_of_space {v : String} (hsp : ' ' ∈ v.data) :
    matchUuid v = false := by
  unfold matchUuid
  cases h : matchFixed patUuid36 (v.data.map Char.toLower) with
  | false => rfl
  | true =>
    have hm : ' ' ∈ v.data.map Char.toLower := by
      have : Char.toLower ' ' = ' ' := by decide
      exact this ▸ List.mem_map_of_mem Char.toLower hsp
    exact absurd hm (matchFixed_no_space (by decide) h)

theorem matchVersion_of_space {v : String} (hsp : ' ' ∈ v.data) :
    matchVersion v = false := by
  unfold matchVersion
  rw [Bool.and_eq_false_iff]
  left
  rw [List.all_eq_false]
  exact ⟨' ', hsp, by decide⟩

theorem matchVersionShort_of_space {v : String} (hsp : ' ' ∈ v.data) :
    matchVersionShort v = false := by
  unfold matchVersionShort
  rw [Bool.and_eq_false_iff]
  left
  rw [List.all_eq_false]
  exact ⟨' ', hsp, by decide⟩

theorem matchDate_of_long {v : String} (hlen : 30 < v.data.length) :
    matchDate v = false := by
  unfold matchDate
  cases h : matchFixed patDate10 v.data with
  | false => rfl
  | true =>
    have := matchFixed_length h
    rw [this] at hlen
    exact absurd hlen (by decide)

theorem matchNumstr_of_space {v : String} (hsp : ' ' ∈ v.data) :
    matchNumstr v = false := by
  unfold matchNumstr
  rw [Bool.and_eq_false_iff]
  right
  rw [List.all_eq_false]
  exact ⟨' ', hsp, by decide⟩

theorem all_eq_false_of_mem {vs : List String} {v : String}
    {f : String → Bool} (hv : v ∈ vs) (hf : f v = false) : vs.all f = false := by
  rw [List.all_eq_false]
  exact ⟨v, hv, by simp [hf]⟩


theorem objSet_fst (kvs : List (String × Value)) (k : String) (v : Value) :
    (objSet kvs k v).map Prod.fst =
      if k ∈ kvs.map Prod.fst then kvs.map Prod.fst else kvs.map Prod.fst ++ [k] := by
  induction kvs with
  | nil => simp [objSet]
  | cons e t ih =>
    obtain ⟨k0, v0⟩ := e
    by_cases hk : k0 = k
    · subst hk
      simp [objSet]
    · have hne : ¬ k = k0 := fun h => hk h.symm
      simp only [objSet, if_neg hk, List.map_cons]
      rw [ih]
      by_cases hmem : k ∈ t.map Prod.fst
      · simp [hmem, hne]
      · simp [hmem, hne]

theorem alistGet_cons (k0 : String) (v0 : Value) (t : List (String × Value)) (k : String) :
    alistGet ((k0, v0) :: t) k = if k0 = k then some v0 else alistGet t k := by
  simp only [alistGet, List.find?]
  by_cases h : k0 = k <;> simp [h]

theorem alistGet_objSet (kvs : List (String × Value)) (k k2 : String) (v : Value) :
    alistGet (objSet kvs k v) k2 = if k2 = k then some v else alistGet kvs k2 := by
  induction kvs with
  | nil =>
    show alistGet [(k, v)] k2 = _
    rw [alistGet_cons]
    by_cases h : k2 = k
    · subst h
      simp
    · have hne : ¬ k = k2 := fun hh => h hh.symm
      simp [h, hne, alistGet]
  | cons e t ih =>
    obtain ⟨k0, v0⟩ := e
    by_cases hk : k0 = k
    · subst hk
      rw [show objSet ((k0, v0) :: t) k0 v = (k0, v) :: t by simp [objSet]]
      rw [alistGet_cons, alistGet_cons]
      by_cases h2 : k0 = k2
      · subst h2
        simp
      · have h2s : ¬ k2 = k0 := fun hh => h2 hh.symm
        simp [h2, h2s]
    · rw [show objSet ((k0, v0) :: t) k v = (k0, v0) :: objSet t k v by simp [objSet, hk]]
      rw [alistGet_cons, alistGet_cons, ih]
      by_cases h02 : k0 = k2
      · subst h02
        have hne : ¬ k0 = k := hk
        have hne2 : ¬ k0 = k := hk
        simp [hne]
      · by_cases h2k : k2 = k <;> simp [h02, h2k, hk]

theorem map_fst_of_fst_preserving (X : List (String × Value))
    (f : String × Value → String × Value) (hf : ∀ e, (f e).1 = e.1) :
    (X.map f).map Prod.fst = X.map Prod.fst := by
  induction X with
  | nil => rfl
  | cons e t ih => simp [hf, ih]

theorem map_eq_self_of_fix {α : Type} {l : List α} {f : α → α}
    (h : ∀ e ∈ l, f e = e) : l.map f = l := by
  induction l with
  | nil => rfl
  | cons a t ih =>
    simp only [List.map_cons, h a (List.mem_cons_self a t), List.cons.injEq, true_and]
    exact ih (fun e he => h e (List.mem_cons_of_mem a he))

theorem objSet_overwrite {kvs : List (String × Value)} {k : String} (v : Value)
    (hn : (kvs.map Prod.fst).Nodup) (hk : k ∈ kvs.map Prod.fst) :
    objSet kvs k v = kvs.map (fun e => if e.1 = k then (e.1, v) else e) := by
  induction kvs with
  | nil => simp at hk
  | cons e t ih =>
    obtain ⟨k0, v0⟩ := e
    simp only [List.map_cons, List.nodup_cons] at hn
    by_cases h0 : k0 = k
    · subst h0
      have ht : t.map (fun e => if e.1 = k0 then (e.1, v) else e) = t := by
        apply map_eq_self_of_fix
        intro a ha
        have hmem : a.1 ∈ t.map Prod.fst := List.mem_map_of_mem Prod.fst ha
        have hne : ¬ a.1 = k0 := fun hc => hn.1 (hc ▸ hmem)
        simp [hne]
      rw [show objSet ((k0, v0) :: t) k0 v = (k0, v) :: t by simp [objSet]]
      simp only [List.map_cons]
      simp [ht]
    · have hkt : k ∈ t.map Prod.fst := by
        rcases List.mem_cons.mp hk with hc | hc
        · exact absurd hc.symm h0
        · exact hc
      rw [show objSet ((k0, v0) :: t) k v = (k0, v0) :: objSet t k v by simp [objSet, h0]]
      simp only [List.map_cons]
      rw [if_neg h0]
      rw [ih hn.2 hkt]

theorem foldSetScalar_keys_mono {es : List (String × Value)} {X : List (String × Value)}
    {k : String} (hk : k ∈ X.map Prod.fst) :
    k ∈ (foldSetScalar X es).map Prod.fst := by
  induction es generalizing X with
  | nil => exact hk
  | cons e rest ih =>
    obtain ⟨p, v⟩ := e
    apply ih
    rw [objSet_fst]
    by_cases hp : p ∈ X.map Prod.fst
    · rw [if_pos hp]
      exact hk
    · rw [if_neg hp]
      exact List.mem_append_left _ hk

theorem foldSetScalar_entry_key {es : List (String × Value)} {X : List (String × Value)}
    {p : String} {v : Value} (he : (p, v) ∈ es) :
    p ∈ (foldSetScalar X es).map Prod.fst := by
  induction es generalizing X with
  | nil => simp at he
  | cons e rest ih =>
    obtain ⟨p0, v0⟩ := e
    rcases List.mem_cons.mp he with hc | hc
    · have h1 : p = p0 := congrArg Prod.fst hc
      subst h1
      show p ∈ (foldSetScalar (objSet X p v0) rest).map Prod.fst
      apply foldSetScalar_keys_mono
      rw [objSet_fst]
      by_cases hp : p ∈ X.map Prod.fst
      · rw [if_pos hp]
        exact hp
      · rw [if_neg hp]
        exact List.mem_append_right _ (List.mem_singleton_self p)
    · exact ih hc

theorem foldSetScalar_nodup {es : List (String × Value)} {X : List (String × Value)}
    (hn : (X.map Prod.fst).Nodup) : ((foldSetScalar X es).map Prod.fst).Nodup := by
  induction es generalizing X with
  | nil => exact hn
  | cons e rest ih =>
    obtain ⟨p, v⟩ := e
    apply ih
    rw [objSet_fst]
    by_cases hp : p ∈ X.map Prod.fst
    · simp [hp, hn]
    · simp only [hp, if_false]
      rw [List.nodup_append]
      exact ⟨hn, List.nodup_singleton p, by simpa using hp⟩

theorem alistGet_foldSetScalar (es : List (String × Value)) (X : List (String × Value))
    (k : String) :
    alistGet (foldSetScalar X es) k =
      match lastVal es k with
      | some w => some w
      | none => alistGet X k := by
  induction es generalizing X with
  | nil => simp [foldSetScalar, lastVal]
  | cons e rest ih =>
    obtain ⟨p, v⟩ := e
    show alistGet (foldSetScalar (objSet X p v) rest) k = _
    rw [ih]
    cases hlv : lastVal rest k with
    | some w => simp [lastVal, hlv]
    | none =>
      simp only [lastVal, hlv]
      rw [alistGet_objSet]
      by_cases hpk : p = k
      · subst hpk
        simp
      · have hne : ¬ k = p := fun h => hpk h.symm
        simp [hpk, hne]

theorem lastVal_isSome_iff (es : List (String × Value)) (k : String) :
    (lastVal es k).isSome = true ↔ k ∈ es.map Prod.fst := by
  induction es with
  | nil => simp [lastVal]
  | cons e rest ih =>
    obtain ⟨p, v⟩ := e
    simp only [lastVal, List.map_cons, List.mem_cons]
    cases hlv : lastVal rest k with
    | some w =>
      simp only [Option.isSome_some, true_iff]
      right
      rw [← ih, hlv]
      rfl
    | none =>
      by_cases hpk : p = k
      · simp [hpk]
      · have hne : ¬ k = p := fun h => hpk h.symm
        simp only [if_neg hpk, Option.isSome_none]
        rw [hlv] at ih
        simp only [Option.isSome_none] at ih
        simp [hne, ← ih]

theorem alistGet_of_mem_nodup {X : List (String × Value)} {k : String} {w : Value}
    (hn : (X.map Prod.fst).Nodup) (hm : (k, w) ∈ X) : alistGet X k = some w := by
  induction X with
  | nil => simp at hm
  | cons e t ih =>
    obtain ⟨k0, w0⟩ := e
    simp only [List.map_cons, List.nodup_cons] at hn
    rcases List.mem_cons.mp hm with hc | hc
    · have h1 : k = k0 := congrArg Prod.fst hc
      have h2 : w = w0 := congrArg Prod.snd hc
      subst h1
      subst h2
      simp [alistGet, List.find?]
    · have hk0 : k0 ≠ k := by
        intro hc2
        subst hc2
        exact hn.1 (List.mem_map_of_mem Prod.fst hc)
      rw [alistGet_cons, if_neg hk0]
      exact ih hn.2 hc

theorem foldSetScalar_closed_form {es : List (String × Value)} {X : List (String × Value)}
    (hn : (X.map Prod.fst).Nodup)
    (hk : ∀ p ∈ es.map Prod.fst, p ∈ X.map Prod.fst) :
    foldSetScalar X es = X.map (fun e => (e.1, (lastVal es e.1).getD e.2)) := by
  induction es generalizing X with
  | nil =>
    simp [foldSetScalar, lastVal]
  | cons e rest ih =>
    obtain ⟨p, v⟩ := e
    have hpX : p ∈ X.map Prod.fst := hk p (by simp)
    show foldSetScalar (objSet X p v) rest = _
    rw [objSet_overwrite v hn hpX]
    set ow : String × Value → String × Value := fun e => if e.1 = p then (e.1, v) else e with how
    have howf : ∀ e, (ow e).1 = e.1 := by
      intro e
      by_cases h : e.1 = p <;> simp [how, h]
    have hfst : (X.map ow).map Prod.fst = X.map Prod.fst := map_fst_of_fst_preserving X ow howf
    have hn2 : ((X.map ow).map Prod.fst).Nodup := hfst ▸ hn
    have hk2 : ∀ q ∈ rest.map Prod.fst, q ∈ (X.map ow).map Prod.fst := by
      intro q hq
      rw [hfst]
      exact hk q (by simp [hq])
    rw [ih hn2 hk2, List.map_map]
    apply List.map_congr_left
    intro e _
    simp only [Function.comp_apply, how]
    by_cases hep : e.1 = p
    · simp only [if_pos hep, lastVal]
      cases hlv : lastVal rest e.1 with
      | some w => simp [hlv]
      | none => simp [hlv, hep]
    · have hne : ¬ p = e.1 := fun h => hep h.symm
      simp only [if_neg hep, lastVal]
      cases hlv : lastVal rest e.1 with
      | some w => simp [hlv]
      | none => simp [hlv, hne]

theorem foldSetScalar_idem {es : List (String × Value)} {X : List (String × Value)}
    (hn : (X.map Prod.fst).Nodup)
    (hkeys : ∀ p ∈ es.map Prod.fst, ∃ v, (p, v) ∈ es) :
    foldSetScalar (foldSetScalar X es) es = foldSetScalar X es := by
  set X1 := foldSetScalar X es with hX1
  have hn1 : (X1.map Prod.fst).Nodup := foldSetScalar_nodup hn
  have hk1 : ∀ p ∈ es.map Prod.fst, p ∈ X1.map Prod.fst := by
    intro p hp
    obtain ⟨v, hv⟩ := hkeys p hp
    exact foldSetScalar_entry_key hv
  rw [foldSetScalar_closed_form hn1 hk1]
  apply map_eq_self_of_fix
  intro e he
  cases hlv : lastVal es e.1 with
  | none => simp
  | some w =>
    have hmem : e.1 ∈ es.map Prod.fst := by
      rw [← lastVal_isSome_iff, hlv]
      rfl
    have hlook : alistGet X1 e.1 = some w := by
      rw [hX1, alistGet_foldSetScalar, hlv]
    have hlook2 : alistGet X1 e.1 = some e.2 := alistGet_of_mem_nodup hn1 he
    rw [hlook] at hlook2
    obtain heq2 : w = e.2 := Option.some_inj.mp hlook2
    rw [heq2]
    simp

/-! ## Claim theorems -/

/-- C1.  The claim says `MissingHint.process_value` returns the
`MISSING` sentinel with probability `pct/100` and otherwise forwards the
seed.  The source (`missing_hint.py`, line 22) returns `MISSING` when
`random.random() * 100 > self.pct`, i.e. on the fraction `1 - pct/100`
of draws: with `pct = 25` the draws `0.5` and `0.9` (75% of the unit
interval) produce `MISSING` and only draws below `0.25` forward the
seed — the opposite of the claimed behaviour, and inconsistent with
`PresenceAnalyzer.get_hint`, which emits `pct` as the *missing*
percentage `round(100 - presence_percentage, 3)`. -/
theorem c1_missing_pct_inverted :
    (runChain [HintE.missing 25] (Value.s "x") [1/2]).1 = Value.missingMark ∧
    (runChain [HintE.missing 25] (Value.s "x") [9/10]).1 = Value.missingMark ∧
    (runChain [HintE.missing 25] (Value.s "x") [1/10]).1 = Value.s "x" := by
  refine ⟨?_, ?_, ?_⟩ <;> norm_num [runChain, popDraw]

/-- C2.  The claim says `NumberHint.process_value` synthesizes a value
and then calls the continuation also when `min == max`.  The source
(`number_hint.py`, lines 157-158) returns `self.min` directly in that
case without calling `call_next`: a `NULL` hint with `pct = 100` placed
right after a constant `NUMBER` hint — which on its own turns every
draw into the `NULL` sentinel — is never consulted, and the chain
yields `3`. -/
theorem c2_number_const_skips_chain :
    (runChain [HintE.number { min := .i 3, max := .i 3 }, HintE.nullh 100]
        Value.pynull [1/2]).1 = Value.num (.i 3) ∧
    (runChain [HintE.nullh 100] Value.pynull [1/2]).1 = Value.nullMark := by
  constructor <;> norm_num [runChain, popDraw]

/-- C3.  The claim says an array chain that yields the `MISSING`
sentinel makes `_build_array` return MISSING upward without error.  The
source (`factory_spec.py`, lines 87-92) only handles the `NULL`
sentinel; any non-`int` chain result — the `MISSING` sentinel included —
raises `TypeError("unexpected generated value for array size: ...")`.
With hints `ARRAY, NUMBER{min: 2, max: 3}, MISSING{pct: 33.333}` and a
draw of `0.9` for the missing hint, the chain yields `MISSING` and the
build raises instead of omitting the field. -/
theorem c3_array_missing_type_error :
    buildArray
        [HintE.arrayMark, HintE.number { min := .i 2, max := .i 3 },
         HintE.missing (33333/1000)]
        (some (buildLeaf [HintE.constV (Value.s "elem")])) [0, 9/10]
      = .error (.typeErr "unexpected generated value for array size") := by
  norm_num [buildArray, generateValueFromHints, runChain, popDraw, numberGen,
    numberSample, pyMaxN, pyMinN, pyRoundN, pyRoundInt, PyNum.toRat]

theorem pyClamp_bounds (mn mx s : PyNum) (hle : mn.toRat ≤ mx.toRat) :
    mn.toRat ≤ (pyMaxN mn (pyMinN mx s)).toRat ∧
      (pyMaxN mn (pyMinN mx s)).toRat ≤ mx.toRat := by
  unfold pyMinN
  by_cases h1 : s.toRat < mx.toRat
  · rw [if_pos h1]
    unfold pyMaxN
    by_cases h2 : mn.toRat < s.toRat
    · rw [if_pos h2]
      exact ⟨le_of_lt h2, le_of_lt h1⟩
    · rw [if_neg h2]
      exact ⟨le_refl _, hle⟩
  · rw [if_neg h1]
    unfold pyMaxN
    by_cases h2 : mn.toRat < mx.toRat
    · rw [if_pos h2]
      exact ⟨le_of_lt h2, le_refl _⟩
    · rw [if_neg h2]
      exact ⟨le_refl _, hle⟩

/-- C4 counterexample.  As stated ("for every prec") the claim fails:
rounding happens *after* clamping (`number_hint.py`, lines 179-183), so
with `min = 0.6`, `max = 0.7`, `prec = 0` a uniform draw of `0.6` gives
the in-range sample `0.66`, which `round(·, 0)` turns into `1.0 > max`. -/
theorem c4_counterexample :
    numberGen { min := .f (3/5), max := .f (7/10), prec := some 0 } (3/5) = .f 1 ∧
      ¬ ((PyNum.f 1).toRat ≤ (PyNum.f (7/10)).toRat) := by
  constructor
  · norm_num [numberGen, numberSample, pyMaxN, pyMinN, pyRoundN, pyRoundTo,
      pyRoundInt, PyNum.toRat]
  · norm_num [PyNum.toRat]

/-- C4 (amended).  For every `NumberHint` (any or no distribution
block) and every draw, the generated value lies in `[min, max]`
provided rounding to `prec` fixes the two endpoints
(`round(min, prec) = min` and `round(max, prec) = max`) — which holds
for every analyzer-produced hint, whose endpoints are themselves stored
rounded to `prec`.  Without that proviso the final rounding step can
leave the interval (see the counterexample).  The `min == max` early
return of `process_value` yields `min` and is trivially in range. -/
theorem c4_number_gen_in_range (h : NumberHintE) (d : ℚ)
    (hle : h.min.toRat ≤ h.max.toRat)
    (hmin : ratRound h.prec h.min.toRat = h.min.toRat)
    (hmax : ratRound h.prec h.max.toRat = h.max.toRat) :
    h.min.toRat ≤ (numberGen h d).toRat ∧ (numberGen h d).toRat ≤ h.max.toRat := by
  unfold numberGen
  rw [ratRound_pyRoundN]
  obtain ⟨hc1, hc2⟩ := pyClamp_bounds h.min h.max (numberSample h d) hle
  constructor
  · calc h.min.toRat = ratRound h.prec h.min.toRat := hmin.symm
      _ ≤ _ := ratRound_mono h.prec hc1
  · calc ratRound h.prec (pyMaxN h.min (pyMinN h.max (numberSample h d))).toRat
        ≤ ratRound h.prec h.max.toRat := ratRound_mono h.prec hc2
      _ = h.max.toRat := hmax

theorem c4_witness :
    (PyNum.i 2).toRat ≤ (numberGen { min := PyNum.i 2, max := PyNum.i 5 } 7).toRat ∧
      (numberGen { min := PyNum.i 2, max := PyNum.i 5 } 7).toRat ≤ (PyNum.i 5).toRat :=
  c4_number_gen_in_range { min := PyNum.i 2, max := PyNum.i 5 } 7
    (by norm_num [PyNum.toRat])
    (by norm_num [ratRound, pyRoundInt, PyNum.toRat])
    (by norm_num [ratRound, pyRoundInt, PyNum.toRat])

/-- C5 counterexample.  The claim says a DURATION hint renders all five
formats, e.g. `fmt = ISO8601_Days` yields a string `P<n>D`.  In the
source (`duration_range_hint.py`, lines 183-217) only `"HMS"`,
`"D.HMS.F"` and `"D.HMS"` are rendered; `"ISO8601_Days"` (and
`"ISO8601_Weeks"`) fall into the numeric `else` branch: with
`min = max = avg = 86400` the hint emits the float `86400.0`, not
`"P1D"`. -/
theorem c5_counterexample :
    durationGen "ISO8601_Days" 86400 86400 86400 5 = Value.num (.f 86400) ∧
      Value.num (.f 86400) ≠ Value.s "P1D" := by
  constructor
  · norm_num [durationGen, durationSeconds]
    rw [if_neg (by decide), if_neg (by decide), if_neg (by decide)]
  · intro hc
    cases hc

/-- C5 (amended).  `DurationRangeHint.process_value` samples
`normalvariate(avg, (max - min)/6)` (here `z` is the standard normal
deviate) and clamps the seconds to `[min, max]`; it renders only the
formats `"HMS"`, `"D.HMS.F"` and `"D.HMS"` as strings, while
`"ISO8601_Days"`, `"ISO8601_Weeks"` and every other `fmt` fall through
to the numeric fallback and return the raw clamped seconds. -/
theorem c5_duration_fallback (fmt : String) (mn mx avg z : ℚ)
    (hle : mn ≤ mx)
    (h1 : fmt ≠ "HMS") (h2 : fmt ≠ "D.HMS.F") (h3 : fmt ≠ "D.HMS") :
    durationGen fmt mn mx avg z = Value.num (.f (durationSeconds mn mx avg z)) ∧
      mn ≤ durationSeconds mn mx avg z ∧ durationSeconds mn mx avg z ≤ mx := by
  refine ⟨?_, ?_, ?_⟩
  · simp [durationGen, h1, h2, h3]
  · unfold durationSeconds
    exact le_max_left _ _
  · unfold durationSeconds
    exact max_le hle (min_le_left _ _)

theorem c5_witness :
    durationGen "ISO8601_Weeks" 0 6 3 100 = Value.num (.f (durationSeconds 0 6 3 100)) ∧
      (0 : ℚ) ≤ durationSeconds 0 6 3 100 ∧ durationSeconds 0 6 3 100 ≤ 6 :=
  c5_duration_fallback "ISO8601_Weeks" 0 6 3 100 (by norm_num)
    (by decide) (by decide) (by decide)


/-- C6 counterexample.  The claim says the recognizer checks ALPHA
before TEXT, so a value set satisfying both criteria yields an ALPHA
hint.  In the source ALPHA is not a detector of the recognizer at all:
`create_spec.py` (lines 80-84) consults the alphanumeric analyzer only
after the *whole* pattern recognizer — whose last creator is TEXT —
returned nothing.  On ten distinct 32-character strings with six spaces
each, both criteria hold, yet the field gets the TEXT hint. -/
theorem c6_counterexample :
    stringFieldHint c6Values = some (PatternHint.text 32 32) ∧
      alphanumericAnalyze c6Values = some PatternHint.alpha ∧
      PatternHint.text 32 32 ≠ PatternHint.alpha := by
  refine ⟨by decide, by decide, by decide⟩

/-- C6 (amended).  The recognizer applies its detectors in the source
order (seven DATETIME formats, DURATION, ISO-days, ISO-weeks, AUTH0_ID,
MAC, UUID4, VERSION, VERSION-short, DATE, NUMSTR, TEXT); the first
match wins, and the ALPHA analyzer is consulted only when every
detector — TEXT included — fails.  Consequently any value set that
contains a value longer than 30 characters with a space that is not
`auth0|`-prefixed (which rules out every detector before TEXT) and that
meets the TEXT threshold (> 25% long values) yields the TEXT hint with
the observed length range — never ALPHA, even when the ALPHA criterion
also holds. -/
theorem c6_text_beats_alpha (values : List String) (v : String)
    (hv : v ∈ values)
    (hlen : 30 < v.data.length)
    (hsp : ' ' ∈ v.data)
    (hauth : matchAuth0 v = false)
    (htext : values.length < 4 * (values.filter isLongText).length) :
    stringFieldHint values =
      some (PatternHint.text (((values.map String.length).minimum?).getD 0)
        (((values.map String.length).maximum?).getD 0)) := by
  have hie : values.isEmpty = false := by
    cases values with
    | nil => exact absurd hv (by simp)
    | cons a t => rfl
  have e1 : cIsoMixedTz values = none := by
    simp [cIsoMixedTz, all_eq_false_of_mem hv (matchIsoMixedTz_of_space hsp)]
  have e2 : cIsoZMixed values = none := by
    simp [cIsoZMixed, all_eq_false_of_mem hv (matchIsoZMixed_of_space hsp)]
  have e3 : cIsoMicro values = none := by
    simp [cIsoMicro, all_eq_false_of_mem hv (matchIsoMicro_of_space hsp)]
  have e4 : cUnix10 values = none := by
    simp [cUnix10, all_eq_false_of_mem hv (matchUnix10_of_space hsp)]
  have e5 : cUnix13 values = none := by
    simp [cUnix13, all_eq_false_of_mem hv (matchUnix13_of_space hsp)]
  have e6 : cDtSpace values = none := by
    simp [cDtSpace, all_eq_false_of_mem hv (matchDtSpace_of_long hlen)]
  have e7 : cDtUs values = none := by
    simp [cDtUs, all_eq_false_of_mem hv (matchDtUs_of_long hlen)]
  have e8 : cDuration values = none := by
    simp [cDuration, hie, all_eq_false_of_mem hv (matchDurationFlex_of_space hsp)]
  have e9 : cPDays values = none := by
    simp [cPDays, all_eq_false_of_mem hv (matchPDays_of_space hsp)]
  have e10 : cPWeeks values = none := by
    simp [cPWeeks, all_eq_false_of_mem hv (matchPWeeks_of_space hsp)]
  have e11 : cAuth0 values = none := by
    simp [cAuth0, all_eq_false_of_mem hv hauth]
  have e12 : cMacAddr values = none := by
    simp [cMacAddr, all_eq_false_of_mem hv (matchMacAddr_of_space hsp)]
  have e13 : cUuid values = none := by
    simp [cUuid, all_eq_false_of_mem hv (matchUuid_of_space hsp)]
  have e14 : cVersion values = none := by
    simp [cVersion, all_eq_false_of_mem hv (matchVersion_of_space hsp)]
  have e15 : cVersionShort values = none := by
    simp [cVersionShort, all_eq_false_of_mem hv (matchVersionShort_of_space hsp)]
  have e16 : cDate values = none := by
    simp [cDate, all_eq_false_of_mem hv (matchDate_of_long hlen)]
  have e17 : cNumstr values = none := by
    simp [cNumstr, all_eq_false_of_mem hv (matchNumstr_of_space hsp)]
  have etext : cText values =
      some (PatternHint.text (((values.map String.length).minimum?).getD 0)
        (((values.map String.length).maximum?).getD 0)) := by
    simp [cText, hie, htext]
  unfold stringFieldHint stringPatternAnalyze
  rw [hie]
  simp only [Bool.false_eq_true, if_false, patternHintCreators, firstHit,
    e1, e2, e3, e4, e5, e6, e7, e8, e9, e10, e11, e12, e13, e14, e15, e16, e17,
    etext]

theorem c6_witness :
    stringFieldHint c6Values =
      some (PatternHint.text (((c6Values.map String.length).minimum?).getD 0)
        (((c6Values.map String.length).maximum?).getD 0)) :=
  c6_text_beats_alpha c6Values "lorem ipsum dolor sit amet one 0"
    (by decide) (by decide) (by decide) (by decide) (by decide)

/-- C7 counterexample.  The claim says a built record never contains
the `MISSING` sentinel anywhere, array elements included.  Static
objects do filter `MISSING` children (`_build_object`, line 191), but
`_build_array` stores element results unfiltered and `_build_leaf`
returns the `MISSING` sentinel as a value: an array whose element chain
is `MISSING{pct: 0}` builds the record `{"arr": [<MISSING>]}` (with
draw `0.5` the element chain yields the sentinel). -/
theorem c7_counterexample :
    buildObject []
        [("arr", fun rng => buildArray
          [HintE.arrayMark, HintE.number { min := .i 1, max := .i 1 }]
          (some (buildLeaf [HintE.missing 0])) rng)] [1/2]
      = .ok (Value.obj [("arr", Value.arr [Value.missingMark])], []) ∧
    Value.containsMissing (Value.obj [("arr", Value.arr [Value.missingMark])]) = true := by
  constructor
  · norm_num [buildObject, buildChildren, buildArray, buildLeaf, buildN,
      generateValueFromHints, runChain, popDraw, PyNum.toRat]
    rfl
  · rfl

theorem buildChildren_no_missing (children : List (String × Builder)) :
    ∀ (rng rng2 : List ℚ) (kvs : List (String × Value)),
      buildChildren children rng = .ok (kvs, rng2) →
      ∀ p ∈ kvs, p.2 ≠ Value.missingMark := by
  induction children with
  | nil =>
    intro rng rng2 kvs h p hp
    simp only [buildChildren, Except.ok.injEq, Prod.mk.injEq] at h
    rw [← h.1] at hp
    simp at hp
  | cons e rest ih =>
    intro rng rng2 kvs h p hp
    obtain ⟨key, f⟩ := e
    simp only [buildChildren] at h
    cases hf : f rng with
    | error err =>
      rw [hf] at h
      simp [Bind.bind, Except.bind] at h
    | ok pr =>
      obtain ⟨v, rng1⟩ := pr
      rw [hf] at h
      simp only [Bind.bind, Except.bind] at h
      cases v
      case missingMark => exact ih rng1 rng2 kvs h p hp
      case nullMark => simp at h
      all_goals
        cases hbc : buildChildren rest rng1 with
        | error e2 =>
          rw [hbc] at h
          simp at h
        | ok pr2 =>
          obtain ⟨kvs2, r2⟩ := pr2
          rw [hbc] at h
          simp only [Except.ok.injEq, Prod.mk.injEq] at h
          rw [← h.1] at hp
          rcases List.mem_cons.mp hp with hc | hc
          · rw [hc]
            simp
          · exact ih rng1 r2 kvs2 hbc p hc

/-- C7 (amended).  `_build_object` does omit every child whose build
returned the `MISSING` sentinel: no value stored in a static object is
ever `MISSING`.  The full claim fails because array elements and
dynamic-object values are stored unfiltered (see the counterexample),
so the guarantee is per static object, not for the whole tree. -/
theorem c7_static_object_values_not_missing
    (selfHints : List HintE) (children : List (String × Builder))
    (rng rng2 : List ℚ) (kvs : List (String × Value))
    (hok : buildObject selfHints children rng = .ok (.obj kvs, rng2)) :
    ∀ p ∈ kvs, p.2 ≠ Value.missingMark := by
  intro p hp
  unfold buildObject at hok
  by_cases hse : selfHints.isEmpty = true
  · rw [if_pos hse] at hok
    simp only [Bind.bind, Except.bind] at hok
    cases hbc : buildChildren children rng with
    | error e2 =>
      rw [hbc] at hok
      simp at hok
    | ok pr =>
      obtain ⟨kvs1, r1⟩ := pr
      rw [hbc] at hok
      simp only [Except.ok.injEq, Prod.mk.injEq, Value.obj.injEq] at hok
      rw [← hok.1] at hp
      exact buildChildren_no_missing children rng r1 kvs1 hbc p hp
  · rw [if_neg hse] at hok
    rcases hcr : generateValueFromHints selfHints rng with ⟨sv, rng1⟩
    rw [hcr] at hok
    cases sv
    all_goals first
      | (simp at hok; done)
      | (simp only [Bind.bind, Except.bind] at hok
         cases hbc : buildChildren children rng1 with
         | error e2 =>
           rw [hbc] at hok
           simp at hok
         | ok pr =>
           obtain ⟨kvs1, r1⟩ := pr
           rw [hbc] at hok
           simp only [Except.ok.injEq, Prod.mk.injEq, Value.obj.injEq] at hok
           rw [← hok.1] at hp
           exact buildChildren_no_missing children rng1 r1 kvs1 hbc p hp)

theorem c7_witness :
    Value.s "v" ≠ Value.missingMark :=
  c7_static_object_values_not_missing []
    [("k", buildLeaf [HintE.constV (Value.s "v")])] [] []
    [("k", Value.s "v")] rfl ("k", Value.s "v") (List.mem_singleton_self _)

theorem setNested_simple (kvs : List (String × Value)) (p : String) (v : Value)
    (h1 : p.data.contains '.' = false) (h2 : p.data.contains '[' = false) :
    setNested (.obj kvs) p v = .ok (.obj (objSet kvs p v)) := by
  unfold setNested
  rw [if_pos]
  constructor
  · intro hc
    simp at h1 hc
    exact h1 hc
  · intro hc
    simp at h2 hc
    exact h2 hc

theorem applyOverrides_scalar_simple (es : List (String × Value)) :
    ∀ kvs : List (String × Value),
      (∀ e ∈ es, e.1.data.contains '.' = false ∧ e.1.data.contains '[' = false) →
      applyOverrides (.obj kvs) (es.map (fun e => (e.1, OverrideV.scalar e.2)))
        = .ok (.obj (foldSetScalar kvs es)) := by
  induction es with
  | nil =>
    intro kvs _
    rfl
  | cons e rest ih =>
    intro kvs h
    obtain ⟨p, v⟩ := e
    obtain ⟨h1, h2⟩ := h (p, v) (List.mem_cons_self _ _)
    show applyOverrides (.obj kvs) ((p, OverrideV.scalar v) ::
      rest.map (fun e => (e.1, OverrideV.scalar e.2))) = _
    simp only [applyOverrides, Bind.bind, Except.bind, setNested_simple kvs p v h1 h2]
    exact ih (objSet kvs p v) (fun e he => h e (List.mem_cons_of_mem _ he))

/-- C8 counterexample.  The claim says applying the same override map
twice yields the same record as applying it once, for scalar and
callable overrides alike.  Two failures in the source
(`factory.py`, `_apply_overrides` lines 99-109 and
`_set_nested_value_from_parts`): a callable override is re-invoked on
the already-overridden value (an increment applied to `{"a": 0}` gives
`1` after one application and `2` after two), and a scalar map whose
paths alias (`{"a.b": 7, "a": 5}`) builds `{"a": 5}` on the first
application but raises `TypeError` on the second, because `a.b` now
navigates into the integer `5`. -/
theorem c8_counterexample :
    applyOverrides (.obj [("a", .num (.i 0))])
        [("a", OverrideV.call1 (fun v =>
          match v with
          | .num (.i n) => .num (.i (n + 1))
          | x => x))]
      = .ok (.obj [("a", .num (.i 1))]) ∧
    applyOverrides (.obj [("a", .num (.i 1))])
        [("a", OverrideV.call1 (fun v =>
          match v with
          | .num (.i n) => .num (.i (n + 1))
          | x => x))]
      = .ok (.obj [("a", .num (.i 2))]) ∧
    Value.num (.i 2) ≠ Value.num (.i 1) ∧
    applyOverrides (.obj [])
        [("a.b", OverrideV.scalar (.num (.i 7))), ("a", OverrideV.scalar (.num (.i 5)))]
      = .ok (.obj [("a", .num (.i 5))]) ∧
    applyOverrides (.obj [("a", .num (.i 5))])
        [("a.b", OverrideV.scalar (.num (.i 7))), ("a", OverrideV.scalar (.num (.i 5)))]
      = .error (.typeErr "item assignment") := by
  refine ⟨rfl, rfl, ?_, rfl, rfl⟩
  intro hc
  cases hc

/-- C8 (amended).  Override application is idempotent for maps of plain
(non-callable) values on simple top-level field paths (no `.` and no
`[` in the path, the fast path of `_set_nested_value`): applying such a
map twice to a record yields exactly the record obtained by applying it
once.  Callable overrides and aliasing nested paths break idempotence
(see the counterexample). -/
theorem c8_scalar_override_idem (kvs es : List (String × Value))
    (hn : (kvs.map Prod.fst).Nodup)
    (hsimple : ∀ e ∈ es, e.1.data.contains '.' = false ∧ e.1.data.contains '[' = false) :
    applyOverrides (.obj kvs) (es.map (fun e => (e.1, OverrideV.scalar e.2)))
      = .ok (.obj (foldSetScalar kvs es)) ∧
    applyOverrides (.obj (foldSetScalar kvs es))
        (es.map (fun e => (e.1, OverrideV.scalar e.2)))
      = .ok (.obj (foldSetScalar kvs es)) := by
  have hkeys : ∀ p ∈ es.map Prod.fst, ∃ v, (p, v) ∈ es := by
    intro p hp
    obtain ⟨e, he, heq⟩ := List.mem_map.mp hp
    refine ⟨e.2, ?_⟩
    rw [← heq]
    simpa using he
  constructor
  · exact applyOverrides_scalar_simple es kvs hsimple
  · rw [applyOverrides_scalar_simple es (foldSetScalar kvs es) hsimple]
    rw [foldSetScalar_idem hn hkeys]

theorem c8_witness :
    applyOverrides (.obj [("a", Value.num (.i 0))])
        ([("a", Value.num (.i 9))].map (fun e => (e.1, OverrideV.scalar e.2)))
      = .ok (.obj (foldSetScalar [("a", Value.num (.i 0))] [("a", Value.num (.i 9))])) ∧
    applyOverrides (.obj (foldSetScalar [("a", Value.num (.i 0))] [("a", Value.num (.i 9))]))
        ([("a", Value.num (.i 9))].map (fun e => (e.1, OverrideV.scalar e.2)))
      = .ok (.obj (foldSetScalar [("a", Value.num (.i 0))] [("a", Value.num (.i 9))])) :=
  c8_scalar_override_idem [("a", Value.num (.i 0))] [("a", Value.num (.i 9))]
    (by simp) (by decide)

/-- C9.  `PresenceAnalyzer.get_hint`, both halves of the claim: (a) a
field path ending in `[]` or `{}` gets no hint, unconditionally; (b) any
other path with presence count `n` and denominator `d` — the parent
path's present-non-null count for a nested tracked path, the total
record count for a top-level path — gets a `MISSING` hint exactly when
`n < d`, with `pct = round((1 - n/d) · 100, 3)`.  (`MAX_PRECISION` is
modelled from the spec as 3; see its definition.) -/
theorem c9_presence_hint (st : PresenceState) (fieldPath : String) :
    ((endsWithChars fieldPath ['[', ']'] = true ∨
      endsWithChars fieldPath ['\x7b', '\x7d'] = true) →
        presenceGetHint st fieldPath = none) ∧
    (∀ n d : ℕ,
      endsWithChars fieldPath ['[', ']'] = false →
      endsWithChars fieldPath ['\x7b', '\x7d'] = false →
      (alistGet st.fieldCounts fieldPath).getD 0 = n →
      (match getParentPath fieldPath with
       | some parent => alistGet st.parentPresence parent = some d
       | none => d = st.totalRecords) →
      0 < d → n ≤ d →
      presenceGetHint st fieldPath =
        if n < d then some ⟨pyRoundTo 3 ((1 - (n : ℚ) / (d : ℚ)) * 100)⟩ else none) := by
  constructor
  · intro hsup
    unfold presenceGetHint
    rcases hsup with h | h <;> simp [h]
  intro n d hA hB hn hd hdpos hnd
  unfold presenceGetHint
  rw [hA, hB]
  simp only [Bool.false_eq_true, if_false]
  have hdq : ((d : ℚ)) ≠ 0 := by
    exact_mod_cast hdpos.ne'
  have hform : (100 : ℚ) - ((n : ℚ) / (d : ℚ)) * 100 = (1 - (n : ℚ) / (d : ℚ)) * 100 := by
    ring
  cases hpp : getParentPath fieldPath with
  | none =>
    rw [hpp] at hd
    simp only []
    rw [← hd, hn]
    by_cases hlt : n < d
    · have hne : ¬ ((n : ℚ) / (d : ℚ)) * 100 = 100 := by
        intro hc
        have h1 : (n : ℚ) = d := by
          field_simp at hc
          linarith
        have : n = d := by exact_mod_cast h1
        omega
      rw [if_neg hne, if_pos hlt, MAX_PRECISION, hform]
    · have heq : n = d := by omega
      subst heq
      have hone : ((n : ℚ) / (n : ℚ)) * 100 = 100 := by
        rw [div_self hdq]
        ring
      rw [if_pos hone, if_neg hlt]
  | some parent =>
    rw [hpp] at hd
    simp only [hd]
    rw [hn]
    by_cases hlt : n < d
    · have hne : ¬ ((n : ℚ) / (d : ℚ)) * 100 = 100 := by
        intro hc
        have h1 : (n : ℚ) = d := by
          field_simp at hc
          linarith
        have : n = d := by exact_mod_cast h1
        omega
      rw [if_neg hne, if_pos hlt, MAX_PRECISION, hform]
    · have heq : n = d := by omega
      subst heq
      have hone : ((n : ℚ) / (n : ℚ)) * 100 = 100 := by
        rw [div_self hdq]
        ring
      rw [if_pos hone, if_neg hlt]

theorem c9_witness :
    (presenceGetHint ⟨[("a.b", 3)], 10, [("a", 4)]⟩ "a.b" =
      if 3 < 4 then some ⟨pyRoundTo 3 ((1 - (3 : ℚ) / (4 : ℚ)) * 100)⟩ else none) ∧
    presenceGetHint ⟨[("items[]", 2)], 10, []⟩ "items[]" = none ∧
    presenceGetHint ⟨[("meta\x7b\x7d", 2)], 10, []⟩ "meta\x7b\x7d" = none := by
  refine ⟨?_, ?_, ?_⟩
  · exact (c9_presence_hint ⟨[("a.b", 3)], 10, [("a", 4)]⟩ "a.b").2 3 4
      (by decide) (by decide) (by decide)
      (by
        have h : getParentPath "a.b" = some "a" := by decide
        simp only [h]
        decide)
      (by decide) (by decide)
  · exact (c9_presence_hint ⟨[("items[]", 2)], 10, []⟩ "items[]").1 (Or.inl (by decide))
  · exact (c9_presence_hint ⟨[("meta\x7b\x7d", 2)], 10, []⟩ "meta\x7b\x7d").1
      (Or.inr (by decide))

/-- C10.  `Factory.__getitem__` accepts only slice keys with a stop
value: a non-slice key and a stop-less slice raise `TypeError`; a valid
slice `start:stop:step` builds one fresh record per element of
`range(start or 0, stop, step or 1)` — in particular `factory[:n]`
yields exactly `n` records and an empty range yields `[]`. -/
theorem c10_getitem_slice_semantics {α : Type} (build : ℕ → α) :
    factoryGetItem build PyKey.nonSlice
        = .error (.typeErr "Only slice indexing is supported") ∧
    (∀ a c, factoryGetItem build (.slice a none c)
        = .error (.typeErr "Slice stop value is required")) ∧
    (∀ a e c, factoryGetItem build (.slice a (some e) c)
        = .ok ((List.range (pyRange (a.getD 0) e (pyStepOf c)).length).map build)) ∧
    (∀ n : ℕ, factoryGetItem build (.slice none (some (n : ℤ)) none)
        = .ok ((List.range n).map build)) ∧
    (∀ a e c, pyRange (a.getD 0) e (pyStepOf c) = [] →
        factoryGetItem build (.slice a (some e) c) = .ok []) := by
  refine ⟨rfl, fun a c => rfl, fun a e c => ?_, fun n => ?_, fun a e c hr => ?_⟩
  · unfold factoryGetItem
    cases a <;> cases c <;> rfl
  · have h2 : (pyRange 0 (n : ℤ) 1).length = n := by
      rw [pyRange, List.length_map, List.length_range]
      unfold pyRangeLen
      norm_num
    show Except.ok ((List.range (pyRange 0 (n : ℤ) 1).length).map build) = _
    rw [h2]
  · have h3 : factoryGetItem build (.slice a (some e) c)
        = .ok ((List.range (pyRange (a.getD 0) e (pyStepOf c)).length).map build) := by
      unfold factoryGetItem
      cases a <;> cases c <;> rfl
    rw [h3, hr]
    rfl

theorem c10_witness :
    factoryGetItem (fun i => i) (PyKey.slice none (some (3 : ℤ)) none)
        = Except.ok [0, 1, 2] ∧
    factoryGetItem (fun i => i) (PyKey.slice none (some (0 : ℤ)) none)
        = Except.ok ([] : List ℕ) := by
  constructor
  · exact ((c10_getitem_slice_semantics (fun i => i)).2.2.2.1 3).trans rfl
  · exact (c10_getitem_slice_semantics (fun i => i)).2.2.2.2 none 0 none (by decide)
